import Mathlib

/-!
Verification of the cube-solver core: cubie-level move algebra
(src/kociemba/cubie.py), coordinate codecs (src/kociemba/coord.py),
move-effect tables (src/kociemba/moves.py), BFS pruning/pattern-database
construction (src/kociemba/pruning.py, src/korf/pattern_database.py),
IDA* search (src/thistlethwaite/ida_star.py), and the solver entry points
(src/kociemba/solver.py, src/thistlethwaite/solver.py).

Machine integers in the source are small nonnegative values; they are
modelled as `Nat`.  numpy arrays of fixed length are modelled as `List Nat`
with `getD` indexing (all real indices are in bounds).  Python functions
that mutate an argument in place are modelled as functions returning the
updated value.
-/

namespace Rubik

/-- Cubie-level cube state (cubie.py `CubieCube`): 8 corner slots and 12
edge slots, each carrying the occupying piece id and its orientation. -/
structure CubieCube where
  corner_perm : List Nat
  corner_orient : List Nat
  edge_perm : List Nat
  edge_orient : List Nat
deriving DecidableEq, Repr

/-- The solved cube (cubie.py `CubieCube.__init__`). -/
def solvedCube : CubieCube :=
  { corner_perm := List.range 8
    corner_orient := List.replicate 8 0
    edge_perm := List.range 12
    edge_orient := List.replicate 12 0 }

/-- Group multiplication (cubie.py `CubieCube.multiply`):
`result.perm[i] = a.perm[b.perm[i]]`,
`result.orient[i] = (a.orient[b.perm[i]] + b.orient[i]) mod 3 (resp. 2)`. -/
def CubieCube.multiply (a b : CubieCube) : CubieCube :=
  { corner_perm :=
      (List.range 8).map (fun i => a.corner_perm.getD (b.corner_perm.getD i 0) 0)
    corner_orient :=
      (List.range 8).map (fun i =>
        (a.corner_orient.getD (b.corner_perm.getD i 0) 0 + b.corner_orient.getD i 0) % 3)
    edge_perm :=
      (List.range 12).map (fun i => a.edge_perm.getD (b.edge_perm.getD i 0) 0)
    edge_orient :=
      (List.range 12).map (fun i =>
        (a.edge_orient.getD (b.edge_perm.getD i 0) 0 + b.edge_orient.getD i 0) % 2) }

/-- cubie.py `create_move_U`. -/
def moveU : CubieCube :=
  { corner_perm := [3, 0, 1, 2, 4, 5, 6, 7]
    corner_orient := List.replicate 8 0
    edge_perm := [3, 0, 1, 2, 4, 5, 6, 7, 8, 9, 10, 11]
    edge_orient := List.replicate 12 0 }

/-- cubie.py `create_move_D`. -/
def moveD : CubieCube :=
  { corner_perm := [0, 1, 2, 3, 5, 6, 7, 4]
    corner_orient := List.replicate 8 0
    edge_perm := [0, 1, 2, 3, 5, 6, 7, 4, 8, 9, 10, 11]
    edge_orient := List.replicate 12 0 }

/-- cubie.py `create_move_R`. -/
def moveR : CubieCube :=
  { corner_perm := [4, 1, 2, 0, 7, 5, 6, 3]
    corner_orient := [2, 0, 0, 1, 1, 0, 0, 2]
    edge_perm := [8, 1, 2, 3, 11, 5, 6, 7, 4, 9, 10, 0]
    edge_orient := List.replicate 12 0 }

/-- cubie.py `create_move_L`. -/
def moveL : CubieCube :=
  { corner_perm := [0, 2, 6, 3, 4, 1, 5, 7]
    corner_orient := [0, 1, 2, 0, 0, 2, 1, 0]
    edge_perm := [0, 1, 10, 3, 4, 5, 9, 7, 8, 2, 6, 11]
    edge_orient := List.replicate 12 0 }

/-- cubie.py `create_move_F`. -/
def moveF : CubieCube :=
  { corner_perm := [1, 5, 2, 3, 0, 4, 6, 7]
    corner_orient := [1, 2, 0, 0, 2, 1, 0, 0]
    edge_perm := [0, 9, 2, 3, 4, 8, 6, 7, 1, 5, 10, 11]
    edge_orient := [0, 1, 0, 0, 0, 1, 0, 0, 1, 1, 0, 0] }

/-- cubie.py `create_move_B`. -/
def moveB : CubieCube :=
  { corner_perm := [0, 1, 3, 7, 4, 5, 2, 6]
    corner_orient := [0, 0, 1, 2, 0, 0, 2, 1]
    edge_perm := [0, 1, 2, 11, 4, 5, 6, 10, 8, 9, 3, 7]
    edge_orient := [0, 0, 0, 1, 0, 0, 0, 1, 0, 0, 1, 1] }

/-- cubie.py: the double move `m2 = m * m`. -/
def double (m : CubieCube) : CubieCube := m.multiply m

/-- cubie.py: the prime move is `m * m * m`. -/
def prime (m : CubieCube) : CubieCube := (m.multiply m).multiply m

/-- The 18 generator moves, in the order of moves.py `ALL_MOVE_NAMES`:
U, U2, U-prime, D, D2, D-prime, R, R2, R-prime, L, L2, L-prime,
F, F2, F-prime, B, B2, B-prime. -/
def allMoves : List CubieCube :=
  [moveU, double moveU, prime moveU,
   moveD, double moveD, prime moveD,
   moveR, double moveR, prime moveR,
   moveL, double moveL, prime moveL,
   moveF, double moveF, prime moveF,
   moveB, double moveB, prime moveB]

/-- The 10 Phase 2 moves, in the order of moves.py `PHASE2_MOVES`:
U, U2, U-prime, D, D2, D-prime, R2, L2, F2, B2. -/
def phase2Moves : List CubieCube :=
  [moveU, double moveU, prime moveU,
   moveD, double moveD, prime moveD,
   double moveR, double moveL, double moveF, double moveB]

/-- Each of the 18 generators paired with its inverse among the 18
(the prime move for a quarter turn, the quarter for a prime, the double
for itself), following cubie.py `ALL_MOVES`. -/
def movInversePairs : List (CubieCube × CubieCube) :=
  [(moveU, prime moveU), (double moveU, double moveU), (prime moveU, moveU),
   (moveD, prime moveD), (double moveD, double moveD), (prime moveD, moveD),
   (moveR, prime moveR), (double moveR, double moveR), (prime moveR, moveR),
   (moveL, prime moveL), (double moveL, double moveL), (prime moveL, moveL),
   (moveF, prime moveF), (double moveF, double moveF), (prime moveF, moveF),
   (moveB, prime moveB), (double moveB, double moveB), (prime moveB, moveB)]

/-! ## Coordinate codecs (coord.py) -/

/-- coord.py `permutation_to_rank`, the inversion-counting loop in its
equivalent Horner form: the digit contributed at the head is the number of
later entries smaller than it, weighted by (length of the rest)!. -/
def permutation_to_rank : List Nat → Nat
  | [] => 0
  | x :: rest =>
    (rest.filter (fun y => y < x)).length * Nat.factorial rest.length +
      permutation_to_rank rest

/-- coord.py `rank_to_permutation` inner loop: pick `perm[rank / fact]`,
remove it, continue with `rank % fact`.  The first argument is the number
of loop iterations still to run. -/
def rank_to_permutation_aux : Nat → Nat → List Nat → List Nat
  | 0, _, _ => []
  | n + 1, rank, avail =>
    let fact := Nat.factorial n
    let idx := rank / fact
    avail.getD idx 0 :: rank_to_permutation_aux n (rank % fact) (avail.eraseIdx idx)

/-- coord.py `rank_to_permutation`. -/
def rank_to_permutation (rank n : Nat) : List Nat :=
  rank_to_permutation_aux n rank (List.range n)

/-- coord.py `binomial`: C(n, k) by the multiplicative loop
`result = result * (n - i) // (i + 1)` after the symmetry reduction
`k := min k (n - k)`; 0 when k exceeds n. -/
def binomial (n k : Nat) : Nat :=
  if n < k then 0
  else (List.range (min k (n - k))).foldl (fun result i => result * (n - i) / (i + 1)) 1

/-- coord.py `combination_to_rank` loop, indices descending from
`positions.length - 1`; stops when `count` hits 0 (the `break`). -/
def comboRankGo (positions : List Nat) : Nat → Nat → Nat
  | 0, _ => 0
  | _ + 1, 0 => 0
  | j + 1, count + 1 =>
    if positions.getD j 0 ≠ 0 then
      binomial j (count + 1) + comboRankGo positions j count
    else
      comboRankGo positions j (count + 1)

/-- coord.py `combination_to_rank`. -/
def combination_to_rank (positions : List Nat) (k : Nat) : Nat :=
  comboRankGo positions positions.length k

/-- coord.py `rank_to_combination` loop, producing the 0/1 array for
indices `[0, j)`; when `count` hits 0 the remaining lower indices stay 0. -/
def rankComboGo : Nat → Nat → Nat → List Nat
  | 0, _, _ => []
  | j + 1, _, 0 => List.replicate (j + 1) 0
  | j + 1, rank, count + 1 =>
    let b := binomial j (count + 1)
    if b ≤ rank then rankComboGo j (rank - b) count ++ [1]
    else rankComboGo j rank (count + 1) ++ [0]

/-- coord.py `rank_to_combination`. -/
def rank_to_combination (rank n k : Nat) : List Nat :=
  rankComboGo n rank k

/-- The base-`k` most-significant-first digit list of length `n`, as
produced by the descending assignment loops of coord.py
`set_corner_orientation` / `set_edge_orientation`. -/
def baseDigits (k : Nat) : Nat → Nat → List Nat
  | 0, _ => []
  | n + 1, coord => baseDigits k n (coord / k) ++ [coord % k]

/-- coord.py `get_corner_orientation`: base-3 value of the first 7 corner
orientations. -/
def get_corner_orientation (c : CubieCube) : Nat :=
  (List.range 7).foldl (fun coord i => coord * 3 + c.corner_orient.getD i 0) 0

/-- coord.py `set_corner_orientation`: write the 7 base-3 digits, then the
8th corner is fixed so the total twist is 0 mod 3. -/
def set_corner_orientation (c : CubieCube) (coord : Nat) : CubieCube :=
  let ds := baseDigits 3 7 coord
  { c with corner_orient := ds ++ [(3 - ds.sum % 3) % 3] }

/-- coord.py `get_edge_orientation`: base-2 value of the first 11 edge
orientations. -/
def get_edge_orientation (c : CubieCube) : Nat :=
  (List.range 11).foldl (fun coord i => coord * 2 + c.edge_orient.getD i 0) 0

/-- coord.py `set_edge_orientation`: write the 11 base-2 digits, then the
12th edge is fixed so the total flip is even. -/
def set_edge_orientation (c : CubieCube) (coord : Nat) : CubieCube :=
  let ds := baseDigits 2 11 coord
  { c with edge_orient := ds ++ [ds.sum % 2] }

/-- The 0/1 occupancy array of coord.py `get_udslice`: 1 where the edge at
that position is one of the four UD-slice edges (ids 8..11). -/
def udsliceIndicator (c : CubieCube) : List Nat :=
  (List.range 12).map (fun i =>
    if 8 ≤ c.edge_perm.getD i 0 ∧ c.edge_perm.getD i 0 ≤ 11 then 1 else 0)

/-- coord.py `get_udslice`: reversed combination rank, so the solved state
maps to 0. -/
def get_udslice (c : CubieCube) : Nat :=
  494 - combination_to_rank (udsliceIndicator c) 4

/-- coord.py `set_udslice` fill loop: slice edges 8.. at marked positions,
others 0.. elsewhere (the source clamps the other-edge counter at 8). -/
def fillUDSlice : List Nat → Nat → Nat → List Nat
  | [], _, _ => []
  | p :: rest, sliceIdx, otherIdx =>
    if p ≠ 0 then (8 + sliceIdx) :: fillUDSlice rest (sliceIdx + 1) otherIdx
    else otherIdx :: fillUDSlice rest sliceIdx (min (otherIdx + 1) 8)

/-- coord.py `set_udslice`. -/
def set_udslice (c : CubieCube) (coord : Nat) : CubieCube :=
  let positions := rank_to_combination (494 - coord) 12 4
  { c with edge_perm := fillUDSlice positions 0 0 }

/-- coord.py `get_corner_permutation`. -/
def get_corner_permutation (c : CubieCube) : Nat :=
  permutation_to_rank c.corner_perm

/-- coord.py `set_corner_permutation`. -/
def set_corner_permutation (c : CubieCube) (coord : Nat) : CubieCube :=
  { c with corner_perm := rank_to_permutation coord 8 }

/-- coord.py `get_edge_permutation`: rank of the permutation held by the
8 U/D edge positions. -/
def get_edge_permutation (c : CubieCube) : Nat :=
  permutation_to_rank (c.edge_perm.take 8)

/-- coord.py `set_edge_permutation`: overwrite positions 0..7. -/
def set_edge_permutation (c : CubieCube) (coord : Nat) : CubieCube :=
  { c with edge_perm := rank_to_permutation coord 8 ++ c.edge_perm.drop 8 }

/-- coord.py `get_udslice_permutation`: rank of the slice-edge ordering in
positions 8..11, normalized to 0..3. -/
def get_udslice_permutation (c : CubieCube) : Nat :=
  permutation_to_rank (((c.edge_perm.drop 8).take 4).map (fun x => x - 8))

/-- coord.py `set_udslice_permutation`: overwrite positions 8..11. -/
def set_udslice_permutation (c : CubieCube) (coord : Nat) : CubieCube :=
  { c with edge_perm :=
      c.edge_perm.take 8 ++ (rank_to_permutation coord 4).map (fun x => x + 8)
      ++ c.edge_perm.drop 12 }

/-! ## Helper lemmas: base-k positional codes -/

/-- Most-significant-first base-k accumulation, the common shape of the
orientation encoders. -/
def encBase (k : Nat) (l : List Nat) : Nat :=
  l.foldl (fun a d => a * k + d) 0

theorem mulAdd_div {k : Nat} (hk : 0 < k) (a b : Nat) (hb : b < k) :
    (a * k + b) / k = a := by
  rw [Nat.add_comm, Nat.add_mul_div_right _ _ hk, Nat.div_eq_of_lt hb]
  omega

theorem mulAdd_mod (k a b : Nat) (hb : b < k) : (a * k + b) % k = b := by
  rw [Nat.add_comm, Nat.add_mul_mod_self_right]
  exact Nat.mod_eq_of_lt hb

theorem encBase_append (k : Nat) (l : List Nat) (d : Nat) :
    encBase k (l ++ [d]) = encBase k l * k + d := by
  simp [encBase, List.foldl_append]

theorem baseDigits_length (k n v : Nat) : (baseDigits k n v).length = n := by
  induction n generalizing v with
  | zero => rfl
  | succ n ih => simp [baseDigits, ih]

theorem encBase_baseDigits (k : Nat) (hk : 0 < k) :
    ∀ n v, v < k ^ n → encBase k (baseDigits k n v) = v := by
  intro n
  induction n with
  | zero =>
    intro v hv
    rw [pow_zero, Nat.lt_one_iff] at hv
    rw [hv]
    rfl
  | succ n ih =>
    intro v hv
    have hdiv : v / k < k ^ n := by
      rw [Nat.div_lt_iff_lt_mul hk]
      calc v < k ^ (n + 1) := hv
        _ = k ^ n * k := by ring
    rw [baseDigits, encBase_append, ih (v / k) hdiv, Nat.div_add_mod']

theorem baseDigits_encBase (k : Nat) :
    ∀ (l : List Nat), (∀ x ∈ l, x < k) → baseDigits k l.length (encBase k l) = l := by
  intro l
  induction l using List.reverseRecOn with
  | nil => intro _; rfl
  | append_singleton l d ih =>
    intro hmem
    have hd : d < k := hmem d (by simp)
    have hk : 0 < k := Nat.lt_of_le_of_lt (Nat.zero_le d) hd
    have hlen : (l ++ [d]).length = l.length + 1 := by simp
    rw [hlen, baseDigits, encBase_append, mulAdd_div hk _ _ hd, mulAdd_mod k _ _ hd,
      ih (fun x hx => hmem x (by simp [hx]))]

theorem foldlRange_getD (k : Nat) (l : List Nat) :
    ∀ n, n ≤ l.length →
      (List.range n).foldl (fun a i => a * k + l.getD i 0) 0 = encBase k (l.take n) := by
  intro n
  induction n with
  | zero => intro _; rfl
  | succ n ih =>
    intro hn
    have hn' : n < l.length := hn
    rw [List.range_succ, List.foldl_append, ih (Nat.le_of_lt hn')]
    simp only [List.foldl_cons, List.foldl_nil]
    rw [List.take_succ, List.getElem?_eq_getElem hn']
    simp only [Option.toList_some]
    rw [encBase_append, List.getD_eq_getElem l 0 hn']

/-! ## Helper lemmas: permutation ranking -/

theorem binomial_loop (n : Nat) :
    ∀ m, m ≤ n →
      (List.range m).foldl (fun result i => result * (n - i) / (i + 1)) 1 = Nat.choose n m := by
  intro m
  induction m with
  | zero => intro _; simp
  | succ m ih =>
    intro hm
    rw [List.range_succ, List.foldl_append, ih (Nat.le_of_succ_le hm)]
    simp only [List.foldl_cons, List.foldl_nil]
    have h := Nat.choose_succ_right_eq n m
    rw [show Nat.choose n m * (n - m) = Nat.choose n (m + 1) * (m + 1) from h.symm]
    exact Nat.mul_div_cancel _ (Nat.succ_pos m)

theorem binomial_eq_choose (n k : Nat) : binomial n k = Nat.choose n k := by
  unfold binomial
  by_cases h : n < k
  · simp [h, Nat.choose_eq_zero_of_lt h]
  · simp only [h, if_false]
    push_neg at h
    rcases Nat.le_total k (n - k) with hmin | hmin
    · rw [min_eq_left hmin, binomial_loop n k h]
    · rw [min_eq_right hmin, binomial_loop n (n - k) (Nat.sub_le n k), Nat.choose_symm h]

theorem permutation_to_rank_lt (p : List Nat) :
    permutation_to_rank p < Nat.factorial p.length := by
  induction p with
  | nil => simp [permutation_to_rank, Nat.factorial]
  | cons x rest ih =>
    simp only [permutation_to_rank, List.length_cons, Nat.factorial_succ]
    have hd : (rest.filter (fun y => y < x)).length ≤ rest.length :=
      List.length_filter_le _ _
    calc (rest.filter (fun y => y < x)).length * Nat.factorial rest.length
          + permutation_to_rank rest
        < (rest.filter (fun y => y < x)).length * Nat.factorial rest.length
          + Nat.factorial rest.length := by omega
      _ = ((rest.filter (fun y => y < x)).length + 1) * Nat.factorial rest.length := by ring
      _ ≤ (rest.length + 1) * Nat.factorial rest.length := by
          exact Nat.mul_le_mul_right _ (by omega)

theorem rank_to_permutation_aux_length (n : Nat) :
    ∀ r avail, (rank_to_permutation_aux n r avail).length = n := by
  induction n with
  | zero => intro r avail; rfl
  | succ n ih => intro r avail; simp [rank_to_permutation_aux, ih]

theorem cons_eraseIdx_perm {l : List Nat} {i : Nat} (h : i < l.length) :
    l.Perm (l[i] :: l.eraseIdx i) := by
  conv_lhs => rw [← List.take_append_drop i l, List.drop_eq_getElem_cons h]
  rw [List.eraseIdx_eq_take_drop_succ]
  exact List.perm_middle

theorem rank_to_permutation_aux_perm (n : Nat) :
    ∀ (avail : List Nat) r, avail.length = n → r < Nat.factorial n →
      (rank_to_permutation_aux n r avail).Perm avail := by
  induction n with
  | zero =>
    intro avail r hlen _
    rw [List.length_eq_zero.mp hlen]
    exact List.Perm.refl _
  | succ n ih =>
    intro avail r hlen hr
    have hfacpos : 0 < Nat.factorial n := Nat.factorial_pos n
    have hidx : r / Nat.factorial n < n + 1 := by
      rw [Nat.div_lt_iff_lt_mul hfacpos]
      calc r < Nat.factorial (n + 1) := hr
        _ = (n + 1) * Nat.factorial n := Nat.factorial_succ n
    have hidx2 : r / Nat.factorial n < avail.length := by omega
    have hlen2 : (avail.eraseIdx (r / Nat.factorial n)).length = n := by
      rw [List.length_eraseIdx, if_pos hidx2, hlen]
      omega
    have hmod : r % Nat.factorial n < Nat.factorial n := Nat.mod_lt _ hfacpos
    show (avail.getD (r / Nat.factorial n) 0 :: rank_to_permutation_aux n
      (r % Nat.factorial n) (avail.eraseIdx (r / Nat.factorial n))).Perm avail
    rw [List.getD_eq_getElem avail 0 hidx2]
    exact ((ih _ _ hlen2 hmod).cons _).trans (cons_eraseIdx_perm hidx2).symm

theorem countP_eraseIdx_lt {l : List Nat} (hp : l.Pairwise (· < ·)) {i : Nat}
    (h : i < l.length) :
    (l.eraseIdx i).countP (fun y => decide (y < l[i])) = i := by
  obtain ⟨x, hx⟩ : ∃ x, l[i] = x := ⟨l[i], rfl⟩
  rw [hx]
  have hsplit : l = l.take i ++ x :: l.drop (i + 1) := by
    conv_lhs => rw [← List.take_append_drop i l, List.drop_eq_getElem_cons h, hx]
  rw [List.eraseIdx_eq_take_drop_succ, List.countP_append]
  have hpair := hp
  rw [hsplit, List.pairwise_append] at hpair
  obtain ⟨_, hpair2, hcross⟩ := hpair
  have htake : (l.take i).countP (fun y => decide (y < x)) = (l.take i).length := by
    rw [List.countP_eq_length]
    intro a ha
    simp only [decide_eq_true_eq]
    exact hcross a ha x (List.mem_cons_self _ _)
  have hdrop : (l.drop (i + 1)).countP (fun y => decide (y < x)) = 0 := by
    rw [List.countP_eq_zero]
    intro a ha
    simp only [decide_eq_true_eq, not_lt]
    exact le_of_lt ((List.pairwise_cons.mp hpair2).1 a ha)
  rw [htake, hdrop, List.length_take]
  omega

theorem countP_lt_of_pairwise {l : List Nat} (hp : l.Pairwise (· < ·)) {i : Nat}
    (h : i < l.length) :
    l.countP (fun y => decide (y < l[i])) = i := by
  obtain ⟨x, hx⟩ : ∃ x, l[i] = x := ⟨l[i], rfl⟩
  rw [hx]
  have hsplit : l = l.take i ++ x :: l.drop (i + 1) := by
    conv_lhs => rw [← List.take_append_drop i l, List.drop_eq_getElem_cons h, hx]
  have herase := countP_eraseIdx_lt hp h
  rw [hx] at herase
  conv_lhs => rw [hsplit]
  rw [List.countP_append, List.countP_cons]
  rw [List.eraseIdx_eq_take_drop_succ, List.countP_append] at herase
  simp only [decide_eq_true_eq] at herase ⊢
  have hxx : ¬ (x < x) := lt_irrefl x
  simp [hxx]
  omega

theorem permutation_to_rank_rank_to_permutation_aux (n : Nat) :
    ∀ (avail : List Nat) r, avail.length = n → avail.Pairwise (· < ·) →
      r < Nat.factorial n →
      permutation_to_rank (rank_to_permutation_aux n r avail) = r := by
  induction n with
  | zero =>
    intro avail r _ _ hr
    rw [Nat.lt_one_iff.mp hr]
    rfl
  | succ n ih =>
    intro avail r hlen hpair hr
    have hfacpos : 0 < Nat.factorial n := Nat.factorial_pos n
    have hidx : r / Nat.factorial n < n + 1 := by
      rw [Nat.div_lt_iff_lt_mul hfacpos]
      calc r < Nat.factorial (n + 1) := hr
        _ = (n + 1) * Nat.factorial n := Nat.factorial_succ n
    have hidx2 : r / Nat.factorial n < avail.length := by omega
    have hlen2 : (avail.eraseIdx (r / Nat.factorial n)).length = n := by
      rw [List.length_eraseIdx, if_pos hidx2, hlen]
      omega
    have hpair2 : (avail.eraseIdx (r / Nat.factorial n)).Pairwise (· < ·) :=
      List.Pairwise.sublist (List.eraseIdx_sublist avail _) hpair
    have hmod : r % Nat.factorial n < Nat.factorial n := Nat.mod_lt _ hfacpos
    show permutation_to_rank (avail.getD (r / Nat.factorial n) 0 ::
      rank_to_permutation_aux n (r % Nat.factorial n)
        (avail.eraseIdx (r / Nat.factorial n))) = r
    rw [List.getD_eq_getElem avail 0 hidx2]
    simp only [permutation_to_rank]
    rw [rank_to_permutation_aux_length, ih _ _ hlen2 hpair2 hmod,
      ← List.countP_eq_length_filter]
    have hperm : (rank_to_permutation_aux n (r % Nat.factorial n)
        (avail.eraseIdx (r / Nat.factorial n))).Perm
        (avail.eraseIdx (r / Nat.factorial n)) :=
      rank_to_permutation_aux_perm n _ _ hlen2 hmod
    rw [hperm.countP_eq, countP_eraseIdx_lt hpair hidx2]
    exact Nat.div_add_mod' r (Nat.factorial n)

theorem rank_to_permutation_aux_permutation_to_rank :
    ∀ (p avail : List Nat), avail.Pairwise (· < ·) → p.Perm avail →
      rank_to_permutation_aux avail.length (permutation_to_rank p) avail = p := by
  intro p
  induction p with
  | nil =>
    intro avail _ hperm
    rw [← hperm.nil_eq]
    rfl
  | cons x rest ih =>
    intro avail hpair hperm
    have hlen : avail.length = rest.length + 1 := by
      rw [← hperm.length_eq]
      rfl
    have hrestlt : permutation_to_rank rest < Nat.factorial rest.length :=
      permutation_to_rank_lt rest
    have hptr : permutation_to_rank (x :: rest) =
        (rest.filter (fun y => y < x)).length * Nat.factorial rest.length +
          permutation_to_rank rest := rfl
    have hdiv : permutation_to_rank (x :: rest) / Nat.factorial rest.length =
        (rest.filter (fun y => y < x)).length := by
      rw [hptr, mulAdd_div (Nat.factorial_pos _) _ _ hrestlt]
    have hmod : permutation_to_rank (x :: rest) % Nat.factorial rest.length =
        permutation_to_rank rest := by
      rw [hptr, mulAdd_mod _ _ _ hrestlt]
    have hx : x ∈ avail := hperm.subset (List.mem_cons_self _ _)
    obtain ⟨i, hi, hxi⟩ := List.getElem_of_mem hx
    have hcount : avail.countP (fun y => decide (y < x)) =
        (rest.filter (fun y => y < x)).length := by
      rw [(hperm.symm).countP_eq, List.countP_cons]
      simp [List.countP_eq_length_filter]
    have hcount2 : avail.countP (fun y => decide (y < x)) = i := by
      have := countP_lt_of_pairwise hpair hi
      rw [hxi] at this
      exact this
    have hdi : (rest.filter (fun y => y < x)).length = i := by omega
    have hdlt : (rest.filter (fun y => y < x)).length < avail.length := by omega
    have hgetd : avail.getD ((rest.filter (fun y => y < x)).length) 0 = x := by
      rw [hdi, List.getD_eq_getElem avail 0 hi, hxi]
    have hrest2 : rest.Perm (avail.eraseIdx ((rest.filter (fun y => y < x)).length)) := by
      have h2 := cons_eraseIdx_perm hi
      rw [hxi] at h2
      rw [hdi]
      exact (hperm.trans h2).cons_inv
    have hlen2 : (avail.eraseIdx ((rest.filter (fun y => y < x)).length)).length =
        rest.length := by
      rw [List.length_eraseIdx, if_pos hdlt, hlen]
      omega
    have hpair2 : (avail.eraseIdx ((rest.filter (fun y => y < x)).length)).Pairwise
        (· < ·) :=
      List.Pairwise.sublist (List.eraseIdx_sublist avail _) hpair
    rw [hlen]
    show avail.getD (permutation_to_rank (x :: rest) / Nat.factorial rest.length) 0 ::
      rank_to_permutation_aux rest.length
        (permutation_to_rank (x :: rest) % Nat.factorial rest.length)
        (avail.eraseIdx (permutation_to_rank (x :: rest) / Nat.factorial rest.length))
      = x :: rest
    rw [hdiv, hmod, hgetd]
    have hih := ih _ hpair2 hrest2
    rw [hlen2] at hih
    rw [hih]

/-! ## Helper lemmas: combination ranking -/

/-- Number of marked entries of a 0/1 occupancy list. -/
def onesCount (l : List Nat) : Nat :=
  l.countP (fun x => decide (x ≠ 0))

theorem onesCount_append (l l2 : List Nat) :
    onesCount (l ++ l2) = onesCount l + onesCount l2 := by
  simp [onesCount, List.countP_append]

theorem comboRankGo_append (l : List Nat) (d : Nat) :
    ∀ j c, j ≤ l.length → comboRankGo (l ++ [d]) j c = comboRankGo l j c := by
  intro j
  induction j with
  | zero => intro c _; rfl
  | succ j ih =>
    intro c hj
    cases c with
    | zero => rfl
    | succ c =>
      have hgd : (l ++ [d]).getD j 0 = l.getD j 0 := List.getD_append l [d] 0 j hj
      simp only [comboRankGo, hgd]
      rw [ih c (by omega), ih (c + 1) (by omega)]

theorem getD_concat_length (l : List Nat) (d : Nat) : (l ++ [d]).getD l.length 0 = d := by
  rw [List.getD_eq_getElem _ 0 (by simp)]
  exact List.getElem_concat_length l d l.length rfl (by simp)

theorem getD_concat_eq (v : Nat) :
    ∀ (L : List Nat) (j : Nat), L.length = j → (L ++ [v]).getD j 0 = v := by
  intro L j hL
  rw [← hL]
  exact getD_concat_length L v

theorem comboRankGo_lt (l : List Nat) :
    ∀ c, onesCount l = c → comboRankGo l l.length c < Nat.choose l.length c := by
  induction l using List.reverseRecOn with
  | nil =>
    intro c hc
    rw [← hc]
    simp [comboRankGo, onesCount, Nat.choose]
  | append_singleton l d ih =>
    intro c hc
    have hlen : (l ++ [d]).length = l.length + 1 := by simp
    rw [hlen]
    by_cases hd : d ≠ 0
    · have hones : onesCount (l ++ [d]) = onesCount l + 1 := by
        rw [onesCount_append]
        simp [onesCount, List.countP_cons, hd]
      cases c with
      | zero => omega
      | succ c =>
        have hc2 : onesCount l = c := by omega
        show comboRankGo (l ++ [d]) (l.length + 1) (c + 1) < Nat.choose (l.length + 1) (c + 1)
        simp only [comboRankGo, getD_concat_length l d]
        rw [if_pos hd, comboRankGo_append l d l.length c (le_refl _)]
        have hrec := ih c hc2
        have hcss := Nat.choose_succ_succ l.length c
        simp only [Nat.succ_eq_add_one] at hcss
        rw [binomial_eq_choose]
        omega
    · push_neg at hd
      subst hd
      have hones : onesCount (l ++ [0]) = onesCount l := by
        rw [onesCount_append]
        simp [onesCount, List.countP_cons]
      cases c with
      | zero =>
        show comboRankGo (l ++ [0]) (l.length + 1) 0 < Nat.choose (l.length + 1) 0
        simp [comboRankGo]
      | succ c =>
        have hc2 : onesCount l = c + 1 := by omega
        show comboRankGo (l ++ [0]) (l.length + 1) (c + 1) < Nat.choose (l.length + 1) (c + 1)
        simp only [comboRankGo, getD_concat_length l 0]
        rw [if_neg (by simp), comboRankGo_append l 0 l.length (c + 1) (le_refl _)]
        calc comboRankGo l l.length (c + 1) < Nat.choose l.length (c + 1) := ih (c + 1) hc2
          _ ≤ Nat.choose (l.length + 1) (c + 1) := Nat.choose_le_choose _ (by omega)

theorem rankComboGo_spec :
    ∀ j c r, r < Nat.choose j c →
      (rankComboGo j r c).length = j ∧ onesCount (rankComboGo j r c) = c ∧
      (∀ x ∈ rankComboGo j r c, x = 0 ∨ x = 1) ∧
      comboRankGo (rankComboGo j r c) j c = r := by
  intro j
  induction j with
  | zero =>
    intro c r hr
    cases c with
    | zero =>
      have hr0 : r = 0 := by
        simp [Nat.choose] at hr
        omega
      subst hr0
      refine ⟨rfl, rfl, by intro x hx; simp [rankComboGo] at hx, rfl⟩
    | succ c =>
      rw [Nat.choose_eq_zero_of_lt (by omega)] at hr
      omega
  | succ j ih =>
    intro c r hr
    cases c with
    | zero =>
      have hr0 : r = 0 := by
        simp [Nat.choose] at hr
        omega
      subst hr0
      refine ⟨by simp [rankComboGo], ?_, ?_, ?_⟩
      · show onesCount (List.replicate (j + 1) 0) = 0
        simp [onesCount, List.countP_eq_zero]
      · show ∀ x ∈ List.replicate (j + 1) 0, x = 0 ∨ x = 1
        intro x hx
        left
        exact List.eq_of_mem_replicate hx
      · show comboRankGo (List.replicate (j + 1) 0) (j + 1) 0 = 0
        rfl
    | succ c =>
      rw [Nat.choose_succ_succ] at hr
      simp only [Nat.succ_eq_add_one] at hr
      by_cases hb : binomial j (c + 1) ≤ r
      · rw [binomial_eq_choose] at hb
        have hr2 : r - Nat.choose j (c + 1) < Nat.choose j c := by omega
        obtain ⟨ihlen, ihones, ih01, ihrank⟩ := ih c _ hr2
        have hstep : rankComboGo (j + 1) r (c + 1) =
            rankComboGo j (r - binomial j (c + 1)) c ++ [1] := by
          simp only [rankComboGo]
          rw [if_pos (by rw [binomial_eq_choose]; exact hb)]
        rw [binomial_eq_choose] at hstep
        refine ⟨?_, ?_, ?_, ?_⟩
        · rw [hstep]; simp [ihlen]
        · rw [hstep, onesCount_append, ihones]
          simp [onesCount, List.countP_cons]
        · rw [hstep]
          intro x hx
          rcases List.mem_append.mp hx with h | h
          · exact ih01 x h
          · right; simpa using h
        · rw [hstep]
          show comboRankGo (rankComboGo j (r - Nat.choose j (c + 1)) c ++ [1]) (j + 1)
            (c + 1) = r
          simp only [comboRankGo, getD_concat_eq 1 _ j ihlen]
          rw [if_pos (by simp), comboRankGo_append _ 1 j c (by omega), ihrank,
            binomial_eq_choose]
          omega
      · have hblt : r < Nat.choose j (c + 1) := by
          rw [binomial_eq_choose] at hb
          omega
        obtain ⟨ihlen, ihones, ih01, ihrank⟩ := ih (c + 1) r hblt
        have hstep : rankComboGo (j + 1) r (c + 1) = rankComboGo j r (c + 1) ++ [0] := by
          simp only [rankComboGo]
          rw [if_neg (by rw [binomial_eq_choose]; omega)]
        refine ⟨?_, ?_, ?_, ?_⟩
        · rw [hstep]; simp [ihlen]
        · rw [hstep, onesCount_append, ihones]
          simp [onesCount, List.countP_cons]
        · rw [hstep]
          intro x hx
          rcases List.mem_append.mp hx with h | h
          · exact ih01 x h
          · left; simpa using h
        · rw [hstep]
          show comboRankGo (rankComboGo j r (c + 1) ++ [0]) (j + 1) (c + 1) = r
          simp only [comboRankGo, getD_concat_eq 0 _ j ihlen]
          rw [if_neg (by simp), comboRankGo_append _ 0 j (c + 1) (by omega), ihrank]

theorem rankComboGo_comboRankGo (l : List Nat) :
    ∀ c, (∀ x ∈ l, x = 0 ∨ x = 1) → onesCount l = c →
      rankComboGo l.length (comboRankGo l l.length c) c = l := by
  induction l using List.reverseRecOn with
  | nil =>
    intro c _ hc
    rw [← hc]
    rfl
  | append_singleton l d ih =>
    intro c h01 hc
    have h01l : ∀ x ∈ l, x = 0 ∨ x = 1 := fun x hx => h01 x (by simp [hx])
    have hd01 : d = 0 ∨ d = 1 := h01 d (by simp)
    have hlen : (l ++ [d]).length = l.length + 1 := by simp
    rw [hlen]
    rcases hd01 with hd | hd
    · subst hd
      have hcl : onesCount l = c := by
        rw [onesCount_append] at hc
        simp [onesCount, List.countP_cons] at hc ⊢
        omega
      cases c with
      | zero =>
        have hrank : comboRankGo (l ++ [0]) (l.length + 1) 0 = 0 := rfl
        rw [hrank]
        show rankComboGo (l.length + 1) 0 0 = l ++ [0]
        have hallz : l = List.replicate l.length 0 := by
          rw [List.eq_replicate_iff]
          refine ⟨rfl, ?_⟩
          intro b hb
          rcases h01l b hb with h | h
          · exact h
          · exfalso
            have hpos : 0 < onesCount l := by
              rw [onesCount, List.countP_pos_iff]
              exact ⟨b, hb, by simp [h]⟩
            omega
        show List.replicate (l.length + 1) 0 = l ++ [0]
        rw [List.replicate_succ', ← hallz]
      | succ c =>
        have hrank : comboRankGo (l ++ [0]) (l.length + 1) (c + 1) =
            comboRankGo l l.length (c + 1) := by
          simp only [comboRankGo, getD_concat_length l 0]
          rw [if_neg (by simp)]
          exact comboRankGo_append l 0 l.length (c + 1) (le_refl _)
        rw [hrank]
        have hbound : comboRankGo l l.length (c + 1) < Nat.choose l.length (c + 1) :=
          comboRankGo_lt l (c + 1) hcl
        show rankComboGo (l.length + 1) (comboRankGo l l.length (c + 1)) (c + 1) = l ++ [0]
        simp only [rankComboGo]
        rw [if_neg (by rw [binomial_eq_choose]; omega)]
        rw [ih (c + 1) h01l hcl]
    · subst hd
      have hcl : onesCount (l ++ [1]) = onesCount l + 1 := by
        rw [onesCount_append]
        simp [onesCount, List.countP_cons]
      cases c with
      | zero => omega
      | succ c =>
        have hcl2 : onesCount l = c := by omega
        have hrank : comboRankGo (l ++ [1]) (l.length + 1) (c + 1) =
            binomial l.length (c + 1) + comboRankGo l l.length c := by
          simp only [comboRankGo, getD_concat_length l 1]
          rw [if_pos (by simp), comboRankGo_append l 1 l.length c (le_refl _)]
        rw [hrank]
        have hbound : comboRankGo l l.length c < Nat.choose l.length c :=
          comboRankGo_lt l c hcl2
        show rankComboGo (l.length + 1)
          (binomial l.length (c + 1) + comboRankGo l l.length c) (c + 1) = l ++ [1]
        simp only [rankComboGo]
        rw [if_pos (by omega)]
        rw [show binomial l.length (c + 1) + comboRankGo l l.length c -
          binomial l.length (c + 1) = comboRankGo l l.length c from by omega]
        rw [ih c h01l hcl2]

/-! ## UD-slice fill and indicator -/

theorem fillUDSlice_length : ∀ (l : List Nat) (s o : Nat),
    (fillUDSlice l s o).length = l.length := by
  intro l
  induction l with
  | nil => intro s o; rfl
  | cons p rest ih =>
    intro s o
    by_cases hp : p ≠ 0
    · simp [fillUDSlice, hp, ih]
    · simp [fillUDSlice, hp, ih]

theorem fillUDSlice_getD : ∀ (l : List Nat) (s o : Nat),
    s + onesCount l ≤ 4 → o + (l.length - onesCount l) ≤ 8 →
    ∀ i, i < l.length →
      ((8 ≤ (fillUDSlice l s o).getD i 0 ∧ (fillUDSlice l s o).getD i 0 ≤ 11) ↔
        l.getD i 0 ≠ 0) := by
  intro l
  induction l with
  | nil =>
    intro s o _ _ i hi
    simp at hi
  | cons p rest ih =>
    intro s o hs ho i hi
    have hcle : onesCount rest ≤ rest.length := List.countP_le_length _
    by_cases hp : p ≠ 0
    · have hones : onesCount (p :: rest) = onesCount rest + 1 := by
        simp [onesCount, List.countP_cons, hp]
      have hfill : fillUDSlice (p :: rest) s o =
          (8 + s) :: fillUDSlice rest (s + 1) o := by
        simp [fillUDSlice, hp]
      rw [hfill]
      rw [hones] at hs ho
      simp only [List.length_cons] at ho
      cases i with
      | zero =>
        simp only [List.getD_cons_zero]
        constructor
        · intro _; exact hp
        · intro _
          constructor
          · omega
          · omega
      | succ i =>
        simp only [List.getD_cons_succ]
        exact ih (s + 1) o (by omega) (by omega) i (by simpa using hi)
    · push_neg at hp
      subst hp
      have hones : onesCount ((0 : Nat) :: rest) = onesCount rest := by
        simp [onesCount, List.countP_cons]
      have ho7 : o + 1 ≤ 8 := by
        rw [hones] at hs ho
        simp only [List.length_cons] at ho
        omega
      have hfill : fillUDSlice ((0 : Nat) :: rest) s o =
          o :: fillUDSlice rest s (min (o + 1) 8) := by
        simp [fillUDSlice]
      rw [hfill]
      cases i with
      | zero =>
        simp only [List.getD_cons_zero, List.getD_cons_zero]
        constructor
        · intro hoo
          omega
        · intro hoo
          simp at hoo
      | succ i =>
        simp only [List.getD_cons_succ]
        rw [min_eq_left ho7]
        rw [hones] at hs ho
        simp only [List.length_cons] at ho
        exact ih s (o + 1) (by omega) (by omega) i (by simpa using hi)

theorem udsliceIndicator_eq (c : CubieCube) (pos : List Nat)
    (hep : c.edge_perm = fillUDSlice pos 0 0)
    (h01 : ∀ x ∈ pos, x = 0 ∨ x = 1)
    (hlen : pos.length = 12) (hones : onesCount pos = 4) :
    udsliceIndicator c = pos := by
  apply List.ext_getElem
  · simp [udsliceIndicator, hlen]
  · intro n h1 h2
    have hn : n < 12 := by simpa [udsliceIndicator] using h1
    have hiff := fillUDSlice_getD pos 0 0 (by omega) (by omega) n (by omega)
    simp only [udsliceIndicator, List.getElem_map, List.getElem_range]
    rw [hep]
    rcases h01 pos[n] (List.getElem_mem h2) with h0 | h1v
    · rw [if_neg]
      · exact h0.symm
      · intro hcon
        have hne := hiff.mp hcon
        rw [List.getD_eq_getElem pos 0 h2] at hne
        exact hne h0
    · rw [if_pos]
      · exact h1v.symm
      · apply hiff.mpr
        rw [List.getD_eq_getElem pos 0 h2, h1v]
        norm_num

/-! ## Codec round trips, one per coordinate -/

theorem get_set_corner_orientation (v : Nat) (hv : v < 2187) (c : CubieCube) :
    get_corner_orientation (set_corner_orientation c v) = v := by
  have hlen : (baseDigits 3 7 v).length = 7 := baseDigits_length 3 7 v
  show (List.range 7).foldl
    (fun coord i => coord * 3 + (baseDigits 3 7 v ++
      [(3 - (baseDigits 3 7 v).sum % 3) % 3]).getD i 0) 0 = v
  rw [foldlRange_getD 3 _ 7 (by simp [hlen])]
  rw [List.take_left' hlen]
  exact encBase_baseDigits 3 (by norm_num) 7 v (by norm_num at hv ⊢; omega)

theorem get_set_edge_orientation (v : Nat) (hv : v < 2048) (c : CubieCube) :
    get_edge_orientation (set_edge_orientation c v) = v := by
  have hlen : (baseDigits 2 11 v).length = 11 := baseDigits_length 2 11 v
  show (List.range 11).foldl
    (fun coord i => coord * 2 + (baseDigits 2 11 v ++
      [(baseDigits 2 11 v).sum % 2]).getD i 0) 0 = v
  rw [foldlRange_getD 2 _ 11 (by simp [hlen])]
  rw [List.take_left' hlen]
  exact encBase_baseDigits 2 (by norm_num) 11 v (by norm_num at hv ⊢; omega)

theorem get_set_udslice (v : Nat) (hv : v < 495) (c : CubieCube) :
    get_udslice (set_udslice c v) = v := by
  have hchoose : Nat.choose 12 4 = 495 := by decide
  have h494 : 494 - v < Nat.choose 12 4 := by omega
  obtain ⟨hlen, hones, h01, hrank⟩ := rankComboGo_spec 12 4 (494 - v) h494
  have hind : udsliceIndicator (set_udslice c v) = rankComboGo 12 (494 - v) 4 :=
    udsliceIndicator_eq _ _ rfl h01 hlen hones
  show 494 - combination_to_rank (udsliceIndicator (set_udslice c v)) 4 = v
  rw [hind]
  show 494 - comboRankGo (rankComboGo 12 (494 - v) 4)
    (rankComboGo 12 (494 - v) 4).length 4 = v
  rw [hlen, hrank]
  omega

theorem get_set_corner_permutation (v : Nat) (hv : v < 40320) (c : CubieCube) :
    get_corner_permutation (set_corner_permutation c v) = v := by
  have hfac : Nat.factorial 8 = 40320 := by decide
  show permutation_to_rank (rank_to_permutation_aux 8 v (List.range 8)) = v
  have := permutation_to_rank_rank_to_permutation_aux 8 (List.range 8) v
    (List.length_range 8) (List.pairwise_lt_range 8) (by omega)
  exact this

theorem get_set_edge_permutation (v : Nat) (hv : v < 40320) :
    get_edge_permutation (set_edge_permutation solvedCube v) = v := by
  have hfac : Nat.factorial 8 = 40320 := by decide
  have hlen : (rank_to_permutation v 8).length = 8 := rank_to_permutation_aux_length 8 v _
  show permutation_to_rank
    ((rank_to_permutation v 8 ++ solvedCube.edge_perm.drop 8).take 8) = v
  rw [List.take_left' hlen]
  exact permutation_to_rank_rank_to_permutation_aux 8 (List.range 8) v
    (List.length_range 8) (List.pairwise_lt_range 8) (by omega)

theorem get_set_udslice_permutation (v : Nat) (hv : v < 24) :
    get_udslice_permutation (set_udslice_permutation solvedCube v) = v := by
  have hfac : Nat.factorial 4 = 24 := by decide
  have hlen : (rank_to_permutation v 4).length = 4 := rank_to_permutation_aux_length 4 v _
  have hmaplen : ((rank_to_permutation v 4).map (fun x => x + 8)).length = 4 := by
    simp [hlen]
  have htake8 : solvedCube.edge_perm.take 8 = List.range 8 := by
    show (List.range 12).take 8 = List.range 8
    rw [List.take_range]
    norm_num
  have hdrop12 : solvedCube.edge_perm.drop 12 = [] := by
    show (List.range 12).drop 12 = []
    exact List.drop_eq_nil_of_le (by simp)
  show permutation_to_rank
    ((((set_udslice_permutation solvedCube v).edge_perm.drop 8).take 4).map
      (fun x => x - 8)) = v
  have hep : (set_udslice_permutation solvedCube v).edge_perm =
      List.range 8 ++ (rank_to_permutation v 4).map (fun x => x + 8) := by
    show solvedCube.edge_perm.take 8 ++ (rank_to_permutation v 4).map (fun x => x + 8)
      ++ solvedCube.edge_perm.drop 12 = _
    rw [htake8, hdrop12]
    simp
  rw [hep]
  rw [List.drop_left' (List.length_range 8)]
  rw [List.take_of_length_le (le_of_eq hmaplen)]
  rw [List.map_map]
  rw [show ((fun x => x - 8) ∘ fun x => x + 8) = id from by funext x; simp]
  rw [List.map_id]
  exact permutation_to_rank_rank_to_permutation_aux 4 (List.range 4) v
    (List.length_range 4) (List.pairwise_lt_range 4) (by omega)

/-- C1: for each of the six coordinate codecs, decoding any in-range value
into a representative cube with the setter and re-encoding with the getter
returns the value; and every getter maps the solved cube to 0. -/
theorem C1_codec_roundtrips :
    (∀ v, v < 2187 → get_corner_orientation (set_corner_orientation solvedCube v) = v) ∧
    (∀ v, v < 2048 → get_edge_orientation (set_edge_orientation solvedCube v) = v) ∧
    (∀ v, v < 495 → get_udslice (set_udslice solvedCube v) = v) ∧
    (∀ v, v < 40320 → get_corner_permutation (set_corner_permutation solvedCube v) = v) ∧
    (∀ v, v < 40320 → get_edge_permutation (set_edge_permutation solvedCube v) = v) ∧
    (∀ v, v < 24 → get_udslice_permutation (set_udslice_permutation solvedCube v) = v) ∧
    get_corner_orientation solvedCube = 0 ∧ get_edge_orientation solvedCube = 0 ∧
    get_udslice solvedCube = 0 ∧ get_corner_permutation solvedCube = 0 ∧
    get_edge_permutation solvedCube = 0 ∧ get_udslice_permutation solvedCube = 0 := by
  refine ⟨fun v hv => get_set_corner_orientation v hv _,
    fun v hv => get_set_edge_orientation v hv _,
    fun v hv => get_set_udslice v hv _,
    fun v hv => get_set_corner_permutation v hv _,
    fun v hv => get_set_edge_permutation v hv,
    fun v hv => get_set_udslice_permutation v hv,
    by decide, by decide, by decide, by decide, by decide, by decide⟩

/-- Witness for C1 at concrete in-range inputs. -/
theorem C1_codec_roundtrips_witness :
    get_udslice (set_udslice solvedCube 137) = 137 ∧
    get_corner_permutation (set_corner_permutation solvedCube 31337) = 31337 :=
  ⟨C1_codec_roundtrips.2.2.1 137 (by norm_num),
   C1_codec_roundtrips.2.2.2.1 31337 (by norm_num)⟩

/-! ## Move algebra: identity and inverses (C4) -/

/-- Well-formed cubie state: the four arrays have their fixed lengths and
orientation entries are in range (as every `CubieCube` built by the source
is). -/
def CubieCube.wf (c : CubieCube) : Prop :=
  c.corner_perm.length = 8 ∧ c.corner_orient.length = 8 ∧
  c.edge_perm.length = 12 ∧ c.edge_orient.length = 12 ∧
  (∀ x ∈ c.corner_orient, x < 3) ∧ (∀ x ∈ c.edge_orient, x < 2)

instance (c : CubieCube) : Decidable c.wf := by
  unfold CubieCube.wf
  infer_instance

theorem getD_map_range {n j : Nat} (f : Nat → Nat) (hj : j < n) :
    ((List.range n).map f).getD j 0 = f j := by
  rw [List.getD_eq_getElem _ _ (by simp [hj]), List.getElem_map, List.getElem_range]

theorem multiply_id (e : CubieCube)
    (hcp : ∀ i < 8, e.corner_perm.getD i 0 = i)
    (hco : ∀ i < 8, e.corner_orient.getD i 0 = 0)
    (hep : ∀ i < 12, e.edge_perm.getD i 0 = i)
    (heo : ∀ i < 12, e.edge_orient.getD i 0 = 0) :
    ∀ s : CubieCube, s.wf → s.multiply e = s := by
  intro s hs
  obtain ⟨h1, h2, h3, h4, h5, h6⟩ := hs
  cases s with
  | mk scp sco sep seo =>
    simp only [CubieCube.wf] at h1 h2 h3 h4 h5 h6
    simp only [CubieCube.multiply, CubieCube.mk.injEq]
    refine ⟨?_, ?_, ?_, ?_⟩
    · apply List.ext_getElem (by simp [h1])
      intro i hi1 hi2
      have hi : i < 8 := by simpa using hi1
      rw [List.getElem_map, List.getElem_range, hcp i hi, List.getD_eq_getElem _ _ hi2]
    · apply List.ext_getElem (by simp [h2])
      intro i hi1 hi2
      have hi : i < 8 := by simpa using hi1
      rw [List.getElem_map, List.getElem_range, hcp i hi, hco i hi,
        List.getD_eq_getElem _ _ hi2, Nat.add_zero]
      exact Nat.mod_eq_of_lt (h5 _ (List.getElem_mem hi2))
    · apply List.ext_getElem (by simp [h3])
      intro i hi1 hi2
      have hi : i < 12 := by simpa using hi1
      rw [List.getElem_map, List.getElem_range, hep i hi, List.getD_eq_getElem _ _ hi2]
    · apply List.ext_getElem (by simp [h4])
      intro i hi1 hi2
      have hi : i < 12 := by simpa using hi1
      rw [List.getElem_map, List.getElem_range, hep i hi, heo i hi,
        List.getD_eq_getElem _ _ hi2, Nat.add_zero]
      exact Nat.mod_eq_of_lt (h6 _ (List.getElem_mem hi2))

theorem multiply_cancel (m mi : CubieCube)
    (hcp : ∀ i < 8, mi.corner_perm.getD i 0 < 8 ∧
      m.corner_perm.getD (mi.corner_perm.getD i 0) 0 = i)
    (hco : ∀ i < 8, (m.corner_orient.getD (mi.corner_perm.getD i 0) 0 +
      mi.corner_orient.getD i 0) % 3 = 0)
    (hep : ∀ i < 12, mi.edge_perm.getD i 0 < 12 ∧
      m.edge_perm.getD (mi.edge_perm.getD i 0) 0 = i)
    (heo : ∀ i < 12, (m.edge_orient.getD (mi.edge_perm.getD i 0) 0 +
      mi.edge_orient.getD i 0) % 2 = 0) :
    ∀ s : CubieCube, s.wf → (s.multiply m).multiply mi = s := by
  intro s hs
  obtain ⟨h1, h2, h3, h4, h5, h6⟩ := hs
  have hmulcp : ∀ j < 8, (s.multiply m).corner_perm.getD j 0 =
      s.corner_perm.getD (m.corner_perm.getD j 0) 0 := by
    intro j hj
    exact getD_map_range _ hj
  have hmulco : ∀ j < 8, (s.multiply m).corner_orient.getD j 0 =
      (s.corner_orient.getD (m.corner_perm.getD j 0) 0 + m.corner_orient.getD j 0) % 3 := by
    intro j hj
    exact getD_map_range _ hj
  have hmulep : ∀ j < 12, (s.multiply m).edge_perm.getD j 0 =
      s.edge_perm.getD (m.edge_perm.getD j 0) 0 := by
    intro j hj
    exact getD_map_range _ hj
  have hmuleo : ∀ j < 12, (s.multiply m).edge_orient.getD j 0 =
      (s.edge_orient.getD (m.edge_perm.getD j 0) 0 + m.edge_orient.getD j 0) % 2 := by
    intro j hj
    exact getD_map_range _ hj
  have hext : ((s.multiply m).multiply mi).corner_perm = s.corner_perm ∧
      ((s.multiply m).multiply mi).corner_orient = s.corner_orient ∧
      ((s.multiply m).multiply mi).edge_perm = s.edge_perm ∧
      ((s.multiply m).multiply mi).edge_orient = s.edge_orient := by
    refine ⟨?_, ?_, ?_, ?_⟩
    · apply List.ext_getElem (by simp [CubieCube.multiply, h1])
      intro i hi1 hi2
      have hi : i < 8 := by simpa [CubieCube.multiply] using hi1
      rw [← List.getD_eq_getElem _ 0 hi1, ← List.getD_eq_getElem _ 0 hi2]
      show ((List.range 8).map (fun j => (s.multiply m).corner_perm.getD
        (mi.corner_perm.getD j 0) 0)).getD i 0 = s.corner_perm.getD i 0
      rw [getD_map_range _ hi, hmulcp _ (hcp i hi).1, (hcp i hi).2]
    · apply List.ext_getElem (by simp [CubieCube.multiply, h2])
      intro i hi1 hi2
      have hi : i < 8 := by simpa [CubieCube.multiply] using hi1
      rw [← List.getD_eq_getElem _ 0 hi1, ← List.getD_eq_getElem _ 0 hi2]
      show ((List.range 8).map (fun j => ((s.multiply m).corner_orient.getD
        (mi.corner_perm.getD j 0) 0 + mi.corner_orient.getD j 0) % 3)).getD i 0 =
        s.corner_orient.getD i 0
      rw [getD_map_range _ hi, hmulco _ (hcp i hi).1, (hcp i hi).2]
      have hxlt : s.corner_orient.getD i 0 < 3 := by
        rw [List.getD_eq_getElem _ _ hi2]
        exact h5 _ (List.getElem_mem hi2)
      have hsum := hco i hi
      omega
    · apply List.ext_getElem (by simp [CubieCube.multiply, h3])
      intro i hi1 hi2
      have hi : i < 12 := by simpa [CubieCube.multiply] using hi1
      rw [← List.getD_eq_getElem _ 0 hi1, ← List.getD_eq_getElem _ 0 hi2]
      show ((List.range 12).map (fun j => (s.multiply m).edge_perm.getD
        (mi.edge_perm.getD j 0) 0)).getD i 0 = s.edge_perm.getD i 0
      rw [getD_map_range _ hi, hmulep _ (hep i hi).1, (hep i hi).2]
    · apply List.ext_getElem (by simp [CubieCube.multiply, h4])
      intro i hi1 hi2
      have hi : i < 12 := by simpa [CubieCube.multiply] using hi1
      rw [← List.getD_eq_getElem _ 0 hi1, ← List.getD_eq_getElem _ 0 hi2]
      show ((List.range 12).map (fun j => ((s.multiply m).edge_orient.getD
        (mi.edge_perm.getD j 0) 0 + mi.edge_orient.getD j 0) % 2)).getD i 0 =
        s.edge_orient.getD i 0
      rw [getD_map_range _ hi, hmuleo _ (hep i hi).1, (hep i hi).2]
      have hxlt : s.edge_orient.getD i 0 < 2 := by
        rw [List.getD_eq_getElem _ _ hi2]
        exact h6 _ (List.getElem_mem hi2)
      have hsum := heo i hi
      omega
  obtain ⟨e1, e2, e3, e4⟩ := hext
  cases s with
  | mk scp sco sep seo =>
    cases hm : (CubieCube.multiply (CubieCube.multiply (CubieCube.mk scp sco sep seo) m) mi) with
    | mk a b c d =>
      rw [hm] at e1 e2 e3 e4
      simp only at e1 e2 e3 e4
      rw [e1, e2, e3, e4]

/-- C4: multiplying any well-formed state by the solved (identity) cube
returns the state unchanged, and multiplying by any of the 18 generator
moves followed by that move's inverse among the 18 generators returns the
state unchanged. -/
theorem C4_multiply_identity_and_inverses :
    ∀ s : CubieCube, s.wf →
      s.multiply solvedCube = s ∧
      ∀ p ∈ movInversePairs, (s.multiply p.1).multiply p.2 = s := by
  intro s hs
  constructor
  · exact multiply_id solvedCube (by decide) (by decide) (by decide) (by decide) s hs
  · intro p hp
    have hall : ∀ p ∈ movInversePairs,
        (∀ i < 8, p.2.corner_perm.getD i 0 < 8 ∧
          p.1.corner_perm.getD (p.2.corner_perm.getD i 0) 0 = i) ∧
        (∀ i < 8, (p.1.corner_orient.getD (p.2.corner_perm.getD i 0) 0 +
          p.2.corner_orient.getD i 0) % 3 = 0) ∧
        (∀ i < 12, p.2.edge_perm.getD i 0 < 12 ∧
          p.1.edge_perm.getD (p.2.edge_perm.getD i 0) 0 = i) ∧
        (∀ i < 12, (p.1.edge_orient.getD (p.2.edge_perm.getD i 0) 0 +
          p.2.edge_orient.getD i 0) % 2 = 0) := by decide
    obtain ⟨hcp, hco, hep, heo⟩ := hall p hp
    exact multiply_cancel p.1 p.2 hcp hco hep heo s hs

/-- Witness for C4: a concrete scrambled state, the R move and its inverse.  -/
theorem C4_multiply_identity_and_inverses_witness :
    (solvedCube.multiply moveF).multiply solvedCube = solvedCube.multiply moveF ∧
    ((solvedCube.multiply moveF).multiply moveR).multiply (prime moveR) =
      solvedCube.multiply moveF := by
  have h := C4_multiply_identity_and_inverses (solvedCube.multiply moveF) (by decide)
  exact ⟨h.1, h.2 (moveR, prime moveR) (by decide)⟩

/-! ## Coordinate congruence under moves (C3) -/

theorem map_range_getD (g : Nat → Nat) (l : List Nat) (n : Nat) (hl : l.length = n) :
    (List.range n).map (fun i => g (l.getD i 0)) = l.map g := by
  apply List.ext_getElem (by simp [hl])
  intro i hi1 hi2
  have hi : i < n := by simpa using hi1
  rw [List.getElem_map, List.getElem_range, List.getElem_map,
    List.getD_eq_getElem _ _ (by omega)]

theorem getD_take_lt (l : List Nat) (n j : Nat) (hj : j < n) (hl : j < l.length) :
    (l.take n).getD j 0 = l.getD j 0 := by
  rw [List.getD_eq_getElem _ _ (by simp; omega), List.getD_eq_getElem _ _ hl]
  exact List.getElem_take l

theorem getD_slice (l : List Nat) (hl : l.length = 12) (j : Nat) (h8 : 8 ≤ j)
    (h12 : j < 12) :
    ((l.drop 8).take 4).getD (j - 8) 0 = l.getD j 0 := by
  have hdl : (l.drop 8).length = 4 := by simp [hl]
  rw [getD_take_lt _ 4 (j - 8) (by omega) (by omega),
    List.getD_eq_getElem _ _ (by omega), List.getD_eq_getElem _ _ (by omega),
    List.getElem_drop]
  congr 1
  omega

theorem multiply_co_congr (a a2 b : CubieCube) (h : a.corner_orient = a2.corner_orient) :
    (a.multiply b).corner_orient = (a2.multiply b).corner_orient := by
  simp only [CubieCube.multiply]
  rw [h]

theorem multiply_eo_congr (a a2 b : CubieCube) (h : a.edge_orient = a2.edge_orient) :
    (a.multiply b).edge_orient = (a2.multiply b).edge_orient := by
  simp only [CubieCube.multiply]
  rw [h]

theorem multiply_cp_congr (a a2 b : CubieCube) (h : a.corner_perm = a2.corner_perm) :
    (a.multiply b).corner_perm = (a2.multiply b).corner_perm := by
  simp only [CubieCube.multiply]
  rw [h]

theorem udsliceIndicator_getD (a : CubieCube) (hlen : a.edge_perm.length = 12) (j : Nat) :
    (udsliceIndicator a).getD j 0 =
      if 8 ≤ a.edge_perm.getD j 0 ∧ a.edge_perm.getD j 0 ≤ 11 then 1 else 0 := by
  by_cases hj : j < 12
  · exact getD_map_range _ hj
  · push_neg at hj
    rw [List.getD_eq_default _ _ (by simp [udsliceIndicator]; omega),
      List.getD_eq_default _ _ (by omega)]
    norm_num

theorem multiply_indicator (a b : CubieCube) (hlen : a.edge_perm.length = 12) :
    udsliceIndicator (a.multiply b) =
      (List.range 12).map (fun i => (udsliceIndicator a).getD (b.edge_perm.getD i 0) 0) := by
  apply List.map_congr_left
  intro i hi
  have hi12 : i < 12 := List.mem_range.mp hi
  have hab : (a.multiply b).edge_perm.getD i 0 =
      a.edge_perm.getD (b.edge_perm.getD i 0) 0 := getD_map_range _ hi12
  rw [hab, udsliceIndicator_getD a hlen]

theorem multiply_us_congr (a a2 b : CubieCube) (ha : a.edge_perm.length = 12)
    (ha2 : a2.edge_perm.length = 12) (h : udsliceIndicator a = udsliceIndicator a2) :
    udsliceIndicator (a.multiply b) = udsliceIndicator (a2.multiply b) := by
  rw [multiply_indicator a b ha, multiply_indicator a2 b ha2, h]

theorem multiply_ep_take8 (a b : CubieCube) (ha : a.edge_perm.length = 12)
    (hb : ∀ i < 8, b.edge_perm.getD i 0 < 8) :
    (a.multiply b).edge_perm.take 8 =
      (List.range 8).map (fun i => (a.edge_perm.take 8).getD (b.edge_perm.getD i 0) 0) := by
  show ((List.range 12).map
    (fun i => a.edge_perm.getD (b.edge_perm.getD i 0) 0)).take 8 = _
  rw [← List.map_take, List.take_range, show ((8 : Nat) ⊓ 12) = 8 from by norm_num]
  apply List.map_congr_left
  intro i hi
  have hi8 : i < 8 := List.mem_range.mp hi
  have hbi := hb i hi8
  rw [getD_take_lt _ 8 _ hbi (by omega)]

theorem multiply_sp_slice (a b : CubieCube) (ha : a.edge_perm.length = 12)
    (hb : ∀ i, 8 ≤ i → i < 12 →
      8 ≤ b.edge_perm.getD i 0 ∧ b.edge_perm.getD i 0 < 12) :
    ((a.multiply b).edge_perm.drop 8).take 4 =
      ([8, 9, 10, 11] : List Nat).map
        (fun i => ((a.edge_perm.drop 8).take 4).getD (b.edge_perm.getD i 0 - 8) 0) := by
  show (((List.range 12).map
    (fun i => a.edge_perm.getD (b.edge_perm.getD i 0) 0)).drop 8).take 4 = _
  rw [← List.map_drop, show (List.range 12).drop 8 = [8, 9, 10, 11] from rfl,
    List.take_of_length_le (by simp)]
  apply List.map_congr_left
  intro i hi
  have hi812 : 8 ≤ i ∧ i < 12 := by
    fin_cases hi <;> omega
  obtain ⟨hb1, hb2⟩ := hb i hi812.1 hi812.2
  rw [getD_slice a.edge_perm ha _ hb1 hb2]

/-! ## Coordinate determination: the decoded representative carries the same
projection as the original state -/

theorem co_determined (s : CubieCube) (hlen : s.corner_orient.length = 8)
    (hmem : ∀ x ∈ s.corner_orient, x < 3) (hsum : s.corner_orient.sum % 3 = 0) :
    (set_corner_orientation solvedCube (get_corner_orientation s)).corner_orient =
      s.corner_orient := by
  have hget : get_corner_orientation s = encBase 3 (s.corner_orient.take 7) :=
    foldlRange_getD 3 _ 7 (by omega)
  have htakelen : (s.corner_orient.take 7).length = 7 := by simp [hlen]
  have hdig : baseDigits 3 7 (get_corner_orientation s) = s.corner_orient.take 7 := by
    have h := baseDigits_encBase 3 (s.corner_orient.take 7)
      (fun x hx => hmem x (List.mem_of_mem_take hx))
    rw [htakelen] at h
    rw [hget]
    exact h
  show baseDigits 3 7 (get_corner_orientation s) ++
    [(3 - (baseDigits 3 7 (get_corner_orientation s)).sum % 3) % 3] = s.corner_orient
  rw [hdig]
  have hsplit : s.corner_orient = s.corner_orient.take 7 ++ [s.corner_orient[7]] := by
    conv_lhs => rw [← List.take_append_drop 7 s.corner_orient,
      List.drop_eq_getElem_cons (by omega)]
    rw [List.drop_eq_nil_of_le (by omega)]
  have hsum7 : s.corner_orient.sum = (s.corner_orient.take 7).sum +
      s.corner_orient[7] := by
    conv_lhs => rw [hsplit]
    rw [List.sum_append, List.sum_cons, List.sum_nil]
    omega
  have hlast : s.corner_orient[7] < 3 := hmem _ (List.getElem_mem (by omega))
  have hpar : (3 - (s.corner_orient.take 7).sum % 3) % 3 = s.corner_orient[7] := by
    omega
  rw [hpar, ← hsplit]

theorem eo_determined (s : CubieCube) (hlen : s.edge_orient.length = 12)
    (hmem : ∀ x ∈ s.edge_orient, x < 2) (hsum : s.edge_orient.sum % 2 = 0) :
    (set_edge_orientation solvedCube (get_edge_orientation s)).edge_orient =
      s.edge_orient := by
  have hget : get_edge_orientation s = encBase 2 (s.edge_orient.take 11) :=
    foldlRange_getD 2 _ 11 (by omega)
  have htakelen : (s.edge_orient.take 11).length = 11 := by simp [hlen]
  have hdig : baseDigits 2 11 (get_edge_orientation s) = s.edge_orient.take 11 := by
    have h := baseDigits_encBase 2 (s.edge_orient.take 11)
      (fun x hx => hmem x (List.mem_of_mem_take hx))
    rw [htakelen] at h
    rw [hget]
    exact h
  show baseDigits 2 11 (get_edge_orientation s) ++
    [(baseDigits 2 11 (get_edge_orientation s)).sum % 2] = s.edge_orient
  rw [hdig]
  have hsplit : s.edge_orient = s.edge_orient.take 11 ++ [s.edge_orient[11]] := by
    conv_lhs => rw [← List.take_append_drop 11 s.edge_orient,
      List.drop_eq_getElem_cons (by omega)]
    rw [List.drop_eq_nil_of_le (by omega)]
  have hsum11 : s.edge_orient.sum = (s.edge_orient.take 11).sum +
      s.edge_orient[11] := by
    conv_lhs => rw [hsplit]
    rw [List.sum_append, List.sum_cons, List.sum_nil]
    omega
  have hlast : s.edge_orient[11] < 2 := hmem _ (List.getElem_mem (by omega))
  have hpar : (s.edge_orient.take 11).sum % 2 = s.edge_orient[11] := by omega
  rw [hpar, ← hsplit]

theorem cp_determined (s : CubieCube) (hperm : s.corner_perm.Perm (List.range 8)) :
    (set_corner_permutation solvedCube (get_corner_permutation s)).corner_perm =
      s.corner_perm := by
  show rank_to_permutation_aux 8 (permutation_to_rank s.corner_perm) (List.range 8) =
    s.corner_perm
  have h := rank_to_permutation_aux_permutation_to_rank s.corner_perm (List.range 8)
    (List.pairwise_lt_range 8) hperm
  rw [List.length_range] at h
  exact h

theorem ep_determined (s : CubieCube) (hperm : (s.edge_perm.take 8).Perm (List.range 8)) :
    (set_edge_permutation solvedCube (get_edge_permutation s)).edge_perm.take 8 =
      s.edge_perm.take 8 := by
  have hlen : (rank_to_permutation (get_edge_permutation s) 8).length = 8 :=
    rank_to_permutation_aux_length 8 _ _
  show (rank_to_permutation (get_edge_permutation s) 8 ++
    solvedCube.edge_perm.drop 8).take 8 = s.edge_perm.take 8
  rw [List.take_left' hlen]
  show rank_to_permutation_aux 8 (permutation_to_rank (s.edge_perm.take 8))
    (List.range 8) = s.edge_perm.take 8
  have h := rank_to_permutation_aux_permutation_to_rank (s.edge_perm.take 8)
    (List.range 8) (List.pairwise_lt_range 8) hperm
  rw [List.length_range] at h
  exact h

theorem sp_determined (s : CubieCube)
    (hperm : (((s.edge_perm.drop 8).take 4).map (fun x => x - 8)).Perm (List.range 4))
    (hge : ∀ x ∈ (s.edge_perm.drop 8).take 4, 8 ≤ x) :
    ((set_udslice_permutation solvedCube
      (get_udslice_permutation s)).edge_perm.drop 8).take 4 =
      (s.edge_perm.drop 8).take 4 := by
  have hlen : (rank_to_permutation (get_udslice_permutation s) 4).length = 4 :=
    rank_to_permutation_aux_length 4 _ _
  have hmaplen :
      ((rank_to_permutation (get_udslice_permutation s) 4).map (fun x => x + 8)).length
      = 4 := by simp [hlen]
  have htake8 : solvedCube.edge_perm.take 8 = List.range 8 := by
    show (List.range 12).take 8 = List.range 8
    rw [List.take_range]
    norm_num
  have hdrop12 : solvedCube.edge_perm.drop 12 = [] := by
    show (List.range 12).drop 12 = []
    exact List.drop_eq_nil_of_le (by simp)
  have hep : (set_udslice_permutation solvedCube (get_udslice_permutation s)).edge_perm =
      List.range 8 ++ (rank_to_permutation (get_udslice_permutation s) 4).map
        (fun x => x + 8) := by
    show solvedCube.edge_perm.take 8 ++ _ ++ solvedCube.edge_perm.drop 12 = _
    rw [htake8, hdrop12]
    simp
  rw [hep, List.drop_left' (List.length_range 8),
    List.take_of_length_le (le_of_eq hmaplen)]
  have hq := rank_to_permutation_aux_permutation_to_rank
    (((s.edge_perm.drop 8).take 4).map (fun x => x - 8)) (List.range 4)
    (List.pairwise_lt_range 4) hperm
  rw [List.length_range] at hq
  show (rank_to_permutation_aux 4 (permutation_to_rank
    (((s.edge_perm.drop 8).take 4).map (fun x => x - 8))) (List.range 4)).map
    (fun x => x + 8) = (s.edge_perm.drop 8).take 4
  rw [hq, List.map_map]
  have : ∀ x ∈ (s.edge_perm.drop 8).take 4, ((fun x => x + 8) ∘ fun x => x - 8) x =
      id x := by
    intro x hx
    have := hge x hx
    simp
    omega
  rw [List.map_congr_left this, List.map_id]

theorem us_determined (s : CubieCube) (hlen : s.edge_perm.length = 12)
    (hperm : s.edge_perm.Perm (List.range 12)) :
    udsliceIndicator (set_udslice solvedCube (get_udslice s)) = udsliceIndicator s ∧
    (set_udslice solvedCube (get_udslice s)).edge_perm.length = 12 := by
  have hind : udsliceIndicator s =
      s.edge_perm.map (fun x => if 8 ≤ x ∧ x ≤ 11 then 1 else 0) :=
    map_range_getD (fun x => if 8 ≤ x ∧ x ≤ 11 then 1 else 0) s.edge_perm 12 hlen
  have h01 : ∀ x ∈ udsliceIndicator s, x = 0 ∨ x = 1 := by
    rw [hind]
    intro x hx
    obtain ⟨y, _, hy⟩ := List.mem_map.mp hx
    by_cases hc : 8 ≤ y ∧ y ≤ 11
    · right; rw [← hy, if_pos hc]
    · left; rw [← hy, if_neg hc]
  have hindlen : (udsliceIndicator s).length = 12 := by simp [udsliceIndicator]
  have hones : onesCount (udsliceIndicator s) = 4 := by
    rw [hind, onesCount, List.countP_map]
    rw [hperm.countP_eq]
    decide
  have hrank : combination_to_rank (udsliceIndicator s) 4 =
      comboRankGo (udsliceIndicator s) 12 4 := by
    show comboRankGo _ (udsliceIndicator s).length 4 = _
    rw [hindlen]
  have hbound : comboRankGo (udsliceIndicator s) 12 4 < 495 := by
    have h := comboRankGo_lt (udsliceIndicator s) 4 hones
    rw [hindlen] at h
    have : Nat.choose 12 4 = 495 := by decide
    omega
  have hget : get_udslice s = 494 - comboRankGo (udsliceIndicator s) 12 4 := by
    show 494 - combination_to_rank (udsliceIndicator s) 4 = _
    rw [hrank]
  have hv : 494 - get_udslice s = comboRankGo (udsliceIndicator s) 12 4 := by
    rw [hget]
    omega
  have hroundtrip : rank_to_combination (494 - get_udslice s) 12 4 =
      udsliceIndicator s := by
    show rankComboGo 12 (494 - get_udslice s) 4 = _
    rw [hv]
    have h := rankComboGo_comboRankGo (udsliceIndicator s) 4 h01 hones
    rw [hindlen] at h
    exact h
  have heplen : (set_udslice solvedCube (get_udslice s)).edge_perm.length = 12 := by
    show (fillUDSlice (rank_to_combination (494 - get_udslice s) 12 4) 0 0).length = 12
    rw [fillUDSlice_length, hroundtrip, hindlen]
  constructor
  · apply udsliceIndicator_eq _ (udsliceIndicator s)
    · show fillUDSlice (rank_to_combination (494 - get_udslice s) 12 4) 0 0 =
        fillUDSlice (udsliceIndicator s) 0 0
      rw [hroundtrip]
    · exact h01
    · exact hindlen
    · exact hones
  · exact heplen

/-! ## C3: move tables agree with full-state simulation -/

/-- The entry the move-table generator stores at `(coord, move)`
(moves.py `MoveTables._generate_coord_table`): build a fresh solved cube,
decode the coordinate with the setter, apply the move by cubie
multiplication, and re-encode with the getter. -/
def coordTableEntry (getC : CubieCube → Nat) (setC : CubieCube → Nat → CubieCube)
    (v : Nat) (m : CubieCube) : Nat :=
  getC ((setC solvedCube v).multiply m)

/-- States over which the three phase-1 coordinates are meaningful: arrays
of the right length, orientations in range obeying the twist/flip parity
invariants, and the edge permutation an actual permutation. -/
def phase1Valid (s : CubieCube) : Prop :=
  s.corner_orient.length = 8 ∧ (∀ x ∈ s.corner_orient, x < 3) ∧
  s.corner_orient.sum % 3 = 0 ∧
  s.edge_orient.length = 12 ∧ (∀ x ∈ s.edge_orient, x < 2) ∧
  s.edge_orient.sum % 2 = 0 ∧
  s.edge_perm.length = 12 ∧ s.edge_perm.Perm (List.range 12)

/-- States in the phase-2 domain: corners an arbitrary permutation, the
eight U/D edge positions holding the eight U/D edges, and the four
UD-slice edges lying in the slice. -/
def phase2Valid (s : CubieCube) : Prop :=
  s.corner_perm.Perm (List.range 8) ∧ s.edge_perm.length = 12 ∧
  (s.edge_perm.take 8).Perm (List.range 8) ∧
  (((s.edge_perm.drop 8).take 4).map (fun x => x - 8)).Perm (List.range 4) ∧
  (∀ x ∈ (s.edge_perm.drop 8).take 4, 8 ≤ x)

theorem get_co_congr (c c2 : CubieCube) (h : c.corner_orient = c2.corner_orient) :
    get_corner_orientation c = get_corner_orientation c2 := by
  simp [get_corner_orientation, h]

theorem get_eo_congr (c c2 : CubieCube) (h : c.edge_orient = c2.edge_orient) :
    get_edge_orientation c = get_edge_orientation c2 := by
  simp [get_edge_orientation, h]

theorem get_us_congr (c c2 : CubieCube) (h : udsliceIndicator c = udsliceIndicator c2) :
    get_udslice c = get_udslice c2 := by
  simp [get_udslice, h]

theorem get_cp_congr (c c2 : CubieCube) (h : c.corner_perm = c2.corner_perm) :
    get_corner_permutation c = get_corner_permutation c2 := by
  simp [get_corner_permutation, h]

theorem get_ep_congr (c c2 : CubieCube) (h : c.edge_perm.take 8 = c2.edge_perm.take 8) :
    get_edge_permutation c = get_edge_permutation c2 := by
  simp [get_edge_permutation, h]

theorem get_sp_congr (c c2 : CubieCube)
    (h : (c.edge_perm.drop 8).take 4 = (c2.edge_perm.drop 8).take 4) :
    get_udslice_permutation c = get_udslice_permutation c2 := by
  simp [get_udslice_permutation, h]

/-- C3: applying a move through the coordinate table built by
decode-multiply-encode agrees with applying the move by full cubie-level
multiplication and projecting.  For the three phase-1 coordinates this
holds for every (invariant-satisfying) state and all 18 moves; for the
three phase-2 permutation coordinates it holds under phase-2 moves on
states whose UD-slice edges lie in the slice. -/
theorem C3_move_tables_agree :
    ∀ s : CubieCube,
      (phase1Valid s → ∀ m ∈ allMoves,
        get_corner_orientation (s.multiply m) =
          coordTableEntry get_corner_orientation set_corner_orientation
            (get_corner_orientation s) m ∧
        get_edge_orientation (s.multiply m) =
          coordTableEntry get_edge_orientation set_edge_orientation
            (get_edge_orientation s) m ∧
        get_udslice (s.multiply m) =
          coordTableEntry get_udslice set_udslice (get_udslice s) m) ∧
      (phase2Valid s → ∀ m ∈ phase2Moves,
        get_corner_permutation (s.multiply m) =
          coordTableEntry get_corner_permutation set_corner_permutation
            (get_corner_permutation s) m ∧
        get_edge_permutation (s.multiply m) =
          coordTableEntry get_edge_permutation set_edge_permutation
            (get_edge_permutation s) m ∧
        get_udslice_permutation (s.multiply m) =
          coordTableEntry get_udslice_permutation set_udslice_permutation
            (get_udslice_permutation s) m) := by
  intro s
  constructor
  · rintro ⟨hco1, hco2, hco3, heo1, heo2, heo3, hep1, hep2⟩ m _
    refine ⟨?_, ?_, ?_⟩
    · exact (get_co_congr _ _
        (multiply_co_congr _ s m (co_determined s hco1 hco2 hco3))).symm
    · exact (get_eo_congr _ _
        (multiply_eo_congr _ s m (eo_determined s heo1 heo2 heo3))).symm
    · obtain ⟨hdet, hsetlen⟩ := us_determined s hep1 hep2
      exact (get_us_congr _ _ (multiply_us_congr _ s m hsetlen hep1 hdet)).symm
  · rintro ⟨hcp, hlen12, hepperm, hspperm, hspge⟩ m hm
    have hmoveprops : ∀ m ∈ phase2Moves,
        (∀ i < 8, m.edge_perm.getD i 0 < 8) ∧
        (∀ i < 12, 8 ≤ i →
          8 ≤ m.edge_perm.getD i 0 ∧ m.edge_perm.getD i 0 < 12) := by decide
    obtain ⟨hm8, hm12⟩ := hmoveprops m hm
    refine ⟨?_, ?_, ?_⟩
    · exact (get_cp_congr _ _ (multiply_cp_congr _ s m (cp_determined s hcp))).symm
    · have hdlen : (set_edge_permutation solvedCube
          (get_edge_permutation s)).edge_perm.length = 12 := by
        show (rank_to_permutation _ 8 ++ solvedCube.edge_perm.drop 8).length = 12
        rw [List.length_append,
          show (rank_to_permutation (get_edge_permutation s) 8).length = 8 from
            rank_to_permutation_aux_length 8 _ _]
        rfl
      have h1 := multiply_ep_take8 s m hlen12 hm8
      have h2 := multiply_ep_take8 (set_edge_permutation solvedCube
        (get_edge_permutation s)) m hdlen hm8
      have hdet := ep_determined s hepperm
      exact (get_ep_congr _ _ (by rw [h1, h2, hdet])).symm
    · have hdlen : (set_udslice_permutation solvedCube
          (get_udslice_permutation s)).edge_perm.length = 12 := by
        show (solvedCube.edge_perm.take 8 ++ _ ++ solvedCube.edge_perm.drop 12).length
          = 12
        rw [List.length_append, List.length_append, List.length_map,
          show (rank_to_permutation (get_udslice_permutation s) 4).length = 4 from
            rank_to_permutation_aux_length 4 _ _]
        rfl
      have hb : ∀ i, 8 ≤ i → i < 12 →
          8 ≤ m.edge_perm.getD i 0 ∧ m.edge_perm.getD i 0 < 12 :=
        fun i h8 h12 => hm12 i h12 h8
      have h1 := multiply_sp_slice s m hlen12 hb
      have h2 := multiply_sp_slice (set_udslice_permutation solvedCube
        (get_udslice_permutation s)) m hdlen hb
      have hdet := sp_determined s hspperm hspge
      exact (get_sp_congr _ _ (by rw [h1, h2, hdet])).symm

/-- Witness for C3: a concrete phase-1 state with the F move, and a
concrete phase-2 state with the R2 move. -/
theorem C3_move_tables_agree_witness :
    get_corner_orientation ((solvedCube.multiply moveR).multiply moveF) =
      coordTableEntry get_corner_orientation set_corner_orientation
        (get_corner_orientation (solvedCube.multiply moveR)) moveF ∧
    get_edge_permutation ((solvedCube.multiply moveU).multiply (double moveR)) =
      coordTableEntry get_edge_permutation set_edge_permutation
        (get_edge_permutation (solvedCube.multiply moveU)) (double moveR) := by
  refine ⟨((C3_move_tables_agree (solvedCube.multiply moveR)).1 ?_ moveF ?_).1,
    (((C3_move_tables_agree (solvedCube.multiply moveU)).2 ?_ (double moveR) ?_).2).1⟩
  · show phase1Valid (solvedCube.multiply moveR)
    unfold phase1Valid
    refine ⟨by decide, by decide, by decide, by decide, by decide, by decide, by decide,
      ?_⟩
    decide
  · decide
  · show phase2Valid (solvedCube.multiply moveU)
    unfold phase2Valid
    refine ⟨?_, by decide, ?_, ?_, by decide⟩ <;> decide
  · decide

/-! ## C2: BFS pruning/pattern-database construction

Shallow embedding of the BFS table generators
(pruning.py `PruningTables._generate_phase1_co_eo` /
`_generate_phase1_eo_slice` / `_generate_phase2_coord`, and
korf/pattern_database.py `bfs_generate_pattern_database`), generic over the
coordinate space `V` and the move alphabet `M`: start from the solved
coordinate at depth 0, pop FIFO, skip expansion at the depth cap, mark each
unvisited successor at depth+1 exactly once, and finally fill unvisited
entries with the cap. -/

section Bfs

variable {V : Type} {M : Type} [DecidableEq V] [Fintype V]

/-- The inner `for move in moves` loop of one BFS expansion: apply each
move to the popped coordinate; first-visit successors are recorded at
`du + 1` and appended to the queue. -/
def expandMoves (step : V → M → V) (u : V) (du : Nat) :
    List M → (V → Option Nat) → List (V × Nat) → ((V → Option Nat) × List (V × Nat))
  | [], tbl, acc => (tbl, acc)
  | mv :: ms, tbl, acc =>
    match tbl (step u mv) with
    | some _ => expandMoves step u du ms tbl acc
    | none => expandMoves step u du ms
        (fun x => if x = step u mv then some (du + 1) else tbl x)
        (acc ++ [(step u mv, du + 1)])

/-- Number of not-yet-visited coordinates. -/
def unmarkedCount (tbl : V → Option Nat) : Nat :=
  (Finset.univ.filter (fun v => tbl v = none)).card

theorem expandMoves_spec (step : V → M → V) (u : V) (du : Nat) :
    ∀ (ms : List M) (tbl : V → Option Nat) (acc : List (V × Nat)),
      (∀ v d, tbl v = some d → (expandMoves step u du ms tbl acc).1 v = some d) ∧
      (∀ v d, (expandMoves step u du ms tbl acc).1 v = some d →
        tbl v = some d ∨ (d = du + 1 ∧ tbl v = none ∧ ∃ mv ∈ ms, v = step u mv)) ∧
      (∃ newl, (expandMoves step u du ms tbl acc).2 = acc ++ newl ∧
        ∀ p ∈ newl, p.2 = du + 1 ∧ tbl p.1 = none ∧
          (expandMoves step u du ms tbl acc).1 p.1 = some (du + 1)) ∧
      (∀ mv ∈ ms, (expandMoves step u du ms tbl acc).1 (step u mv) ≠ none) ∧
      (∀ v d, tbl v = none → (expandMoves step u du ms tbl acc).1 v = some d →
        (v, d) ∈ (expandMoves step u du ms tbl acc).2) ∧
      unmarkedCount (expandMoves step u du ms tbl acc).1 +
        (expandMoves step u du ms tbl acc).2.length =
        unmarkedCount tbl + acc.length := by
  intro ms
  induction ms with
  | nil =>
    intro tbl acc
    refine ⟨fun v d h => h, fun v d h => Or.inl h,
      ⟨[], by simp [expandMoves], by simp⟩, by simp, ?_, by simp [expandMoves]⟩
    intro v d hnone hsome
    simp only [expandMoves] at hsome
    rw [hnone] at hsome
    cases hsome
  | cons mv ms ih =>
    intro tbl acc
    show _ ∧ _ ∧ _ ∧ _ ∧ _ ∧ _
    rcases hw : tbl (step u mv) with _ | dw
    · -- first visit of step u mv: mark and enqueue
      have heq : expandMoves step u du (mv :: ms) tbl acc =
          expandMoves step u du ms
            (fun x => if x = step u mv then some (du + 1) else tbl x)
            (acc ++ [(step u mv, du + 1)]) := by
        simp only [expandMoves, hw]
      set tbl2 : V → Option Nat :=
        fun x => if x = step u mv then some (du + 1) else tbl x with htbl2
      obtain ⟨ih1, ih2, ⟨newl, hnewl, hnewl2⟩, ih4, ih5, ih6⟩ :=
        ih tbl2 (acc ++ [(step u mv, du + 1)])
      rw [heq]
      have hmono : ∀ v d, tbl v = some d → tbl2 v = some d := by
        intro v d h
        rw [htbl2]
        simp only
        rw [if_neg]
        · exact h
        · intro hv
          rw [hv, hw] at h
          cases h
      have hw2 : tbl2 (step u mv) = some (du + 1) := by
        rw [htbl2]
        simp
      refine ⟨?_, ?_, ?_, ?_, ?_, ?_⟩
      · intro v d h
        exact ih1 v d (hmono v d h)
      · intro v d h
        rcases ih2 v d h with h2 | ⟨hd, hnone, mv2, hmv2, hv⟩
        · rw [htbl2] at h2
          simp only at h2
          by_cases hv : v = step u mv
          · rw [if_pos hv] at h2
            right
            refine ⟨by cases h2; rfl, by rw [hv, hw], mv, by simp, hv⟩
          · rw [if_neg hv] at h2
            exact Or.inl h2
        · right
          refine ⟨hd, ?_, mv2, by simp [hmv2], hv⟩
          rw [htbl2] at hnone
          simp only at hnone
          by_cases hv : v = step u mv
          · rw [if_pos hv] at hnone
            cases hnone
          · rw [if_neg hv] at hnone
            exact hnone
      · refine ⟨(step u mv, du + 1) :: newl, by simp [hnewl], ?_⟩
        intro p hp
        rcases List.mem_cons.mp hp with hp | hp
        · subst hp
          exact ⟨rfl, hw, ih1 _ _ hw2⟩
        · obtain ⟨hp1, hp2, hp3⟩ := hnewl2 p hp
          refine ⟨hp1, ?_, hp3⟩
          rw [htbl2] at hp2
          simp only at hp2
          by_cases hv : p.1 = step u mv
          · rw [if_pos hv] at hp2
            cases hp2
          · rw [if_neg hv] at hp2
            exact hp2
      · intro mv2 hmv2
        rcases List.mem_cons.mp hmv2 with h | h
        · subst h
          rw [ih1 _ _ hw2]
          simp
        · exact ih4 mv2 h
      · intro v d hnone hsome
        by_cases hv : v = step u mv
        · have : d = du + 1 := by
            have := ih1 _ _ hw2
            rw [hv] at hsome
            rw [this] at hsome
            cases hsome
            rfl
          subst this
          rw [hnewl]
          subst hv
          simp
        · have hnone2 : tbl2 v = none := by
            rw [htbl2]
            simp only
            rw [if_neg hv]
            exact hnone
          exact ih5 v d hnone2 hsome
      · rw [ih6]
        have hcard : unmarkedCount tbl2 + 1 = unmarkedCount tbl := by
          have hmem : step u mv ∈ Finset.univ.filter
              (fun v => tbl v = none) := by
            simp [hw]
          have hfilter : Finset.univ.filter (fun v => tbl2 v = none) =
              (Finset.univ.filter (fun v => tbl v = none)).erase (step u mv) := by
            ext v
            simp only [Finset.mem_filter, Finset.mem_univ, true_and,
              Finset.mem_erase]
            rw [htbl2]
            simp only
            by_cases hv : v = step u mv
            · rw [if_pos hv]
              simp [hv]
            · rw [if_neg hv]
              simp [hv]
          rw [unmarkedCount, unmarkedCount, hfilter,
            Finset.card_erase_of_mem hmem]
          have : 0 < (Finset.univ.filter (fun v => tbl v = none)).card :=
            Finset.card_pos.mpr ⟨step u mv, hmem⟩
          omega
        simp only [List.length_append, List.length_cons, List.length_nil]
        omega
    · -- already visited: skip
      have heq : expandMoves step u du (mv :: ms) tbl acc =
          expandMoves step u du ms tbl acc := by
        simp only [expandMoves, hw]
      obtain ⟨ih1, ih2, ⟨newl, hnewl, hnewl2⟩, ih4, ih5, ih6⟩ := ih tbl acc
      rw [heq]
      refine ⟨ih1, ?_, ⟨newl, hnewl, hnewl2⟩, ?_, ih5, ih6⟩
      · intro v d h
        rcases ih2 v d h with h2 | ⟨hd, hnone, mv2, hmv2, hv⟩
        · exact Or.inl h2
        · exact Or.inr ⟨hd, hnone, mv2, by simp [hmv2], hv⟩
      · intro mv2 hmv2
        rcases List.mem_cons.mp hmv2 with h | h
        · subst h
          intro hcon
          rw [ih1 _ _ hw] at hcon
          cases hcon
        · exact ih4 mv2 h

end Bfs

/-- The BFS main loop (the `while queue:` loop): pop, skip expansion at
the depth cap, otherwise expand all moves. -/
def bfsLoop {V M : Type} [DecidableEq V] [Fintype V]
    (step : V → M → V) (moves : List M) (cap : Nat) :
    (V → Option Nat) → List (V × Nat) → (V → Option Nat)
  | tbl, [] => tbl
  | tbl, (u, du) :: rest =>
    if cap ≤ du then bfsLoop step moves cap tbl rest
    else
      bfsLoop step moves cap (expandMoves step u du moves tbl []).1
        (rest ++ (expandMoves step u du moves tbl []).2)
termination_by tbl q => unmarkedCount tbl + q.length
decreasing_by
  · simp only [List.length_cons]
    omega
  · have h := (expandMoves_spec step u du moves tbl []).2.2.2.2.2
    simp only [List.length_nil, Nat.add_zero] at h
    simp only [List.length_append, List.length_cons]
    omega

/-- The initial table: every coordinate unvisited except the solved
coordinate at distance 0. -/
def initTbl {V : Type} [DecidableEq V] (src : V) : V → Option Nat :=
  fun x => if x = src then some 0 else none

theorem initTbl_eq_some {V : Type} [DecidableEq V] (src v : V) (d : Nat) :
    initTbl src v = some d ↔ v = src ∧ d = 0 := by
  unfold initTbl
  by_cases hvs : v = src
  · simp [hvs, eq_comm]
  · simp [hvs]

theorem initTbl_src {V : Type} [DecidableEq V] (src : V) :
    initTbl src src = some 0 := by
  simp [initTbl]

/-- The complete generator: initialize the solved coordinate at distance 0
with the queue holding it, run the BFS loop, then fill every unvisited
entry with the cap (`table[table == -1] = max_depth`). -/
def bfsTable {V M : Type} [DecidableEq V] [Fintype V]
    (step : V → M → V) (moves : List M) (cap : Nat) (src : V) : V → Nat :=
  fun v => ((bfsLoop step moves cap (initTbl src) [(src, 0)]) v).getD cap

/-- Reachability from `src` in exactly `n` moves of the move set. -/
def ReachN {V M : Type} (step : V → M → V) (moves : List M) (src : V) :
    Nat → V → Prop
  | 0, v => v = src
  | n + 1, v => ∃ u mv, ReachN step moves src n u ∧ mv ∈ moves ∧ v = step u mv

/-- Every reachable vertex has a minimal reach length (its BFS distance). -/
theorem exists_min_reach {V M : Type} (step : V → M → V) (moves : List M) (src : V)
    {e : Nat} {v : V} (h : ReachN step moves src e v) :
    ∃ d, d ≤ e ∧ ReachN step moves src d v ∧
      ∀ e2, ReachN step moves src e2 v → d ≤ e2 := by
  classical
  have hex : ∃ n, ReachN step moves src n v := ⟨e, h⟩
  exact ⟨Nat.find hex, Nat.find_min' hex h, Nat.find_spec hex,
    fun e2 h2 => Nat.find_min' hex h2⟩

/-- Invariant of the BFS loop state: the source is visited; queued entries
are recorded at their queue depth; the queue is sorted with at most two
adjacent depth layers; every recorded value is the exact BFS distance and
at most the cap; everything reachable within the current head depth (and
the cap) is already visited; and every visited vertex below the cap is
either still queued or fully expanded. -/
def BfsInv {V M : Type} (step : V → M → V) (moves : List M)
    (cap : Nat) (src : V) (tbl : V → Option Nat) (q : List (V × Nat)) : Prop :=
  (tbl src ≠ none) ∧
  (∀ p ∈ q, tbl p.1 = some p.2) ∧
  q.Pairwise (fun a b => a.2 ≤ b.2 ∧ b.2 ≤ a.2 + 1) ∧
  (∀ v d, tbl v = some d → d ≤ cap ∧ ReachN step moves src d v ∧
    ∀ e, ReachN step moves src e v → d ≤ e) ∧
  (∀ v e, ReachN step moves src e v → e ≤ cap →
    ∀ w dw, q.head? = some (w, dw) → e ≤ dw → tbl v ≠ none) ∧
  (∀ v dv, tbl v = some dv → dv < cap →
    (v, dv) ∈ q ∨ ∀ mv ∈ moves, tbl (step v mv) ≠ none)

theorem bfsInv_init {V M : Type} [DecidableEq V] (step : V → M → V) (moves : List M)
    (cap : Nat) (src : V) :
    BfsInv step moves cap src (initTbl src) [(src, 0)] := by
  refine ⟨by simp [initTbl_src], ?_, by simp, ?_, ?_, ?_⟩
  · intro p hp
    rw [List.mem_singleton.mp hp]
    exact initTbl_src src
  · intro v d hv
    obtain ⟨hvs, hd⟩ := (initTbl_eq_some src v d).mp hv
    subst hvs
    subst hd
    exact ⟨Nat.zero_le cap, rfl, fun e _ => Nat.zero_le e⟩
  · intro v e hr _ w dw hhead hedw
    simp only [List.head?_cons, Option.some.injEq, Prod.mk.injEq] at hhead
    have he0 : e = 0 := by omega
    subst he0
    have hv : v = src := hr
    rw [hv, initTbl_src]
    simp
  · intro v dv hv _
    left
    obtain ⟨hvs, hd⟩ := (initTbl_eq_some src v dv).mp hv
    subst hvs
    subst hd
    simp

theorem bfsInv_skip {V M : Type} {step : V → M → V} {moves : List M}
    {cap : Nat} {src : V} {tbl : V → Option Nat} {u : V} {du : Nat}
    {rest : List (V × Nat)}
    (h : BfsInv step moves cap src tbl ((u, du) :: rest)) (hdu : cap ≤ du) :
    BfsInv step moves cap src tbl rest := by
  obtain ⟨h0, h1, h2, h3, h4, h5⟩ := h
  have hpairhead := (List.pairwise_cons.mp h2).1
  refine ⟨h0, fun p hp => h1 p (List.mem_cons_of_mem _ hp),
    (List.pairwise_cons.mp h2).2, h3, ?_, ?_⟩
  · intro v e hr he w dw hhead hedw
    exact h4 v e hr he u du rfl (by omega)
  · intro v dv hv hdvcap
    rcases h5 v dv hv hdvcap with hq | hexp
    · rcases List.mem_cons.mp hq with heq | hq2
      · exfalso
        have : dv = du := by
          have := Prod.mk.injEq v dv u du ▸ heq
          cases heq
          rfl
        omega
      · exact Or.inl hq2
    · exact Or.inr hexp

theorem bfsInv_expand {V M : Type} [DecidableEq V] [Fintype V]
    {step : V → M → V} {moves : List M}
    {cap : Nat} {src : V} {tbl : V → Option Nat} {u : V} {du : Nat}
    {rest : List (V × Nat)}
    (h : BfsInv step moves cap src tbl ((u, du) :: rest)) (hdu : du < cap) :
    BfsInv step moves cap src (expandMoves step u du moves tbl []).1
      (rest ++ (expandMoves step u du moves tbl []).2) := by
  obtain ⟨h0, h1, h2, h3, h4, h5⟩ := h
  obtain ⟨e1, e2, ⟨newl, hnl, hnl2⟩, e4, e5, _⟩ := expandMoves_spec step u du moves tbl []
  have hE2 : (expandMoves step u du moves tbl []).2 = newl := by simpa using hnl
  have htblu : tbl u = some du := h1 (u, du) (List.mem_cons_self _ _)
  have hpairhead := (List.pairwise_cons.mp h2).1
  have hpairrest := (List.pairwise_cons.mp h2).2
  have hmono : ∀ v, tbl v ≠ none → (expandMoves step u du moves tbl []).1 v ≠ none := by
    intro v hv
    rcases htv : tbl v with _ | d
    · exact absurd htv hv
    · rw [e1 v d htv]
      simp
  have hnonemono : ∀ v, (expandMoves step u du moves tbl []).1 v = none →
      tbl v = none := by
    intro v hv
    rcases htv : tbl v with _ | d
    · rfl
    · exfalso
      have := e1 v d htv
      rw [hv] at this
      cases this
  rw [hE2]
  have hpair_new : (rest ++ newl).Pairwise
      (fun a b => a.2 ≤ b.2 ∧ b.2 ≤ a.2 + 1) := by
    rw [List.pairwise_append]
    refine ⟨hpairrest, ?_, ?_⟩
    · apply List.pairwise_of_forall_mem_list
      intro a ha b hb
      have ha2 := (hnl2 a ha).1
      have hb2 := (hnl2 b hb).1
      omega
    · intro a ha b hb
      have hda := hpairhead a ha
      have hb2 := (hnl2 b hb).1
      omega
  refine ⟨?_, ?_, hpair_new, ?_, ?_, ?_⟩
  · rcases hts : tbl src with _ | d
    · exact absurd hts h0
    · rw [e1 src d hts]
      simp
  · intro p hp
    rcases List.mem_append.mp hp with hp | hp
    · exact e1 p.1 p.2 (h1 p (List.mem_cons_of_mem _ hp))
    · obtain ⟨hp1, _, hp3⟩ := hnl2 p hp
      rw [hp1]
      exact hp3
  · intro v d hv
    rcases e2 v d hv with hold | ⟨hd, hvnone, mv, hmv, hvstep⟩
    · exact h3 v d hold
    · subst hd
      refine ⟨by omega, ?_, ?_⟩
      · exact ⟨u, mv, (h3 u du htblu).2.1, hmv, hvstep⟩
      · intro e he
        by_contra hcon
        push_neg at hcon
        have := h4 v e he (by omega) u du rfl (by omega)
        exact this hvnone
  · intro v e hr he w dw hhead hedw
    have hdw : du ≤ dw ∧ dw ≤ du + 1 := by
      rcases rest with _ | ⟨⟨w0, dw0⟩, rest2⟩
      · simp only [List.nil_append] at hhead
        rcases newl with _ | ⟨p0, newl2⟩
        · cases hhead
        · have hp0 := (hnl2 p0 (List.mem_cons_self _ _)).1
          simp only [List.head?_cons, Option.some.injEq] at hhead
          rw [hhead] at hp0
          simp only at hp0
          omega
      · simp only [List.cons_append, List.head?_cons, Option.some.injEq,
          Prod.mk.injEq] at hhead
        have := hpairhead (w0, dw0) (List.mem_cons_self _ _)
        simp only at this
        omega
    by_cases hecase : e ≤ du
    · exact hmono v (h4 v e hr he u du rfl hecase)
    · have he1 : e = du + 1 := by omega
      subst he1
      obtain ⟨p, mv, hp, hmv, hvstep⟩ := hr
      have htp : tbl p ≠ none := h4 p du hp (by omega) u du rfl le_rfl
      rcases htpp : tbl p with _ | dp
      · exact absurd htpp htp
      · have hdp : dp ≤ du := (h3 p dp htpp).2.2 du hp
        intro hTv
        have hvnone : tbl v = none := hnonemono v hTv
        by_cases hpu : p = u
        · subst hpu
          exact e4 mv hmv (by rw [← hvstep]; exact hTv)
        · have hpq : (p, dp) ∉ rest := by
            intro hmem
            have hmemnew : (p, dp) ∈ rest ++ newl := List.mem_append.mpr (Or.inl hmem)
            rcases hq : rest ++ newl with _ | ⟨q0, qtail⟩
            · rw [hq] at hmemnew
              cases hmemnew
            · rw [hq] at hmemnew hpair_new
              have hq0 : q0 = (w, dw) := by
                rw [hq] at hhead
                simp only [List.head?_cons, Option.some.injEq] at hhead
                exact hhead
              rcases List.mem_cons.mp hmemnew with heq | htail
              · have hpw : (p, dp) = (w, dw) := heq.trans hq0
                have hdpdw : dp = dw := congrArg Prod.snd hpw
                omega
              · have hrel := (List.pairwise_cons.mp hpair_new).1 (p, dp) htail
                rw [hq0] at hrel
                simp only at hrel
                omega
          have hpoldq : (p, dp) ∉ ((u, du) :: rest) := by
            intro hmem
            rcases List.mem_cons.mp hmem with heq | hmem2
            · cases heq
              exact hpu rfl
            · exact hpq hmem2
          rcases h5 p dp htpp (by omega) with hq | hexp
          · exact hpoldq hq
          · have := hexp mv hmv
            rw [← hvstep] at this
            exact this hvnone
  · intro v dv hv hdvcap
    rcases e2 v dv hv with hold | ⟨hd, hvnone, mv, hmv, hvstep⟩
    · rcases h5 v dv hold hdvcap with hq | hexp
      · rcases List.mem_cons.mp hq with heq | hq2
        · cases heq
          right
          intro mv2 hmv2
          exact e4 mv2 hmv2
        · exact Or.inl (List.mem_append.mpr (Or.inl hq2))
      · right
        intro mv2 hmv2
        exact hmono _ (hexp mv2 hmv2)
    · subst hd
      left
      apply List.mem_append.mpr
      right
      rw [← hE2]
      exact e5 v (du + 1) hvnone hv

theorem bfsLoop_nil {V M : Type} [DecidableEq V] [Fintype V]
    (step : V → M → V) (moves : List M) (cap : Nat) (tbl : V → Option Nat) :
    bfsLoop step moves cap tbl [] = tbl := by
  rw [bfsLoop]

theorem bfsLoop_cons {V M : Type} [DecidableEq V] [Fintype V]
    (step : V → M → V) (moves : List M) (cap : Nat) (tbl : V → Option Nat)
    (u : V) (du : Nat) (rest : List (V × Nat)) :
    bfsLoop step moves cap tbl ((u, du) :: rest) =
      if cap ≤ du then bfsLoop step moves cap tbl rest
      else bfsLoop step moves cap (expandMoves step u du moves tbl []).1
        (rest ++ (expandMoves step u du moves tbl []).2) := by
  rw [bfsLoop]

theorem bfsLoop_inv {V M : Type} [DecidableEq V] [Fintype V]
    (step : V → M → V) (moves : List M) (cap : Nat) (src : V) :
    ∀ (N : Nat) (tbl : V → Option Nat) (q : List (V × Nat)),
      unmarkedCount tbl + q.length ≤ N →
      BfsInv step moves cap src tbl q →
      BfsInv step moves cap src (bfsLoop step moves cap tbl q) [] := by
  intro N
  induction N with
  | zero =>
    intro tbl q hN hInv
    have hq : q = [] := by
      cases q with
      | nil => rfl
      | cons p rest => simp at hN
    subst hq
    rw [bfsLoop_nil]
    exact hInv
  | succ N ih =>
    intro tbl q hN hInv
    cases q with
    | nil =>
      rw [bfsLoop_nil]
      exact hInv
    | cons p rest =>
      obtain ⟨u, du⟩ := p
      rw [bfsLoop_cons]
      by_cases hdu : cap ≤ du
      · rw [if_pos hdu]
        refine ih tbl rest ?_ (bfsInv_skip hInv hdu)
        simp only [List.length_cons] at hN
        omega
      · rw [if_neg hdu]
        have hmeasure := (expandMoves_spec step u du moves tbl []).2.2.2.2.2
        simp only [List.length_nil, Nat.add_zero] at hmeasure
        refine ih _ _ ?_ (bfsInv_expand hInv (by omega))
        simp only [List.length_append, List.length_cons] at hN ⊢
        omega

theorem bfs_final_complete {V M : Type} {step : V → M → V} {moves : List M}
    {cap : Nat} {src : V} {tbl : V → Option Nat}
    (hInv : BfsInv step moves cap src tbl []) :
    ∀ e, e ≤ cap → ∀ v, ReachN step moves src e v →
      (∀ e2, ReachN step moves src e2 v → e ≤ e2) → tbl v = some e := by
  obtain ⟨h0, _, _, h3, _, h5⟩ := hInv
  intro e
  induction e using Nat.strong_induction_on with
  | _ e ih =>
    intro hecap v hr hmin
    rcases htv : tbl v with _ | d
    · exfalso
      cases e with
      | zero =>
        have hv : v = src := hr
        rw [hv] at htv
        exact h0 htv
      | succ e =>
        obtain ⟨p, mv, hp, hmv, hvstep⟩ := hr
        obtain ⟨dp, hdple, hdp1, hdp2⟩ := exists_min_reach step moves src hp
        have htp : tbl p = some dp :=
          ih dp (by omega) (by omega) p hdp1 hdp2
        rcases h5 p dp htp (by omega) with hq | hexp
        · cases hq
        · have := hexp mv hmv
          rw [← hvstep] at this
          exact this htv
    · have hd := h3 v d htv
      have hde : d ≤ e := hd.2.2 e hr
      have hed : e ≤ d := hmin d hd.2.1
      have hdeq : d = e := by omega
      rw [hdeq]

/-- C2: the BFS construction of a pruning/pattern-database table records,
for every coordinate reached within the depth cap, its exact minimum move
distance; every stored entry is a lower bound on the length of any move
sequence reaching that coordinate; and a stored value equal to the cap
means every way to reach that coordinate takes at least cap moves. -/
theorem C2_bfs_pattern_database {V M : Type} [DecidableEq V] [Fintype V]
    (step : V → M → V) (moves : List M) (cap : Nat) (src : V) :
    (∀ v d, ReachN step moves src d v →
      (∀ e, ReachN step moves src e v → d ≤ e) → d ≤ cap →
      bfsTable step moves cap src v = d) ∧
    (∀ v e, ReachN step moves src e v → bfsTable step moves cap src v ≤ e) ∧
    (∀ v, bfsTable step moves cap src v = cap →
      ∀ e, ReachN step moves src e v → cap ≤ e) := by
  have hInv := bfsLoop_inv step moves cap src
    (unmarkedCount (initTbl src) + 1) (initTbl src) [(src, 0)]
    (by simp) (bfsInv_init step moves cap src)
  set T := bfsLoop step moves cap (initTbl src) [(src, 0)] with hT
  have hTdef : ∀ v, bfsTable step moves cap src v = (T v).getD cap := fun v => rfl
  have hcomplete := bfs_final_complete hInv
  have h3 := hInv.2.2.2.1
  refine ⟨?_, ?_, ?_⟩
  · intro v d hr hmin hdcap
    rw [hTdef v, hcomplete d hdcap v hr hmin]
    rfl
  · intro v e hr
    rcases htv : T v with _ | d
    · rw [hTdef v, htv]
      show cap ≤ e
      by_contra hlt
      push_neg at hlt
      obtain ⟨dm, hdmle, hdm1, hdm2⟩ := exists_min_reach step moves src hr
      have := hcomplete dm (by omega) v hdm1 hdm2
      rw [htv] at this
      cases this
    · rw [hTdef v, htv]
      show d ≤ e
      exact (h3 v d htv).2.2 e hr
  · intro v hcap e hr
    rcases htv : T v with _ | d
    · by_contra hlt
      push_neg at hlt
      obtain ⟨dm, hdmle, hdm1, hdm2⟩ := exists_min_reach step moves src hr
      have := hcomplete dm (by omega) v hdm1 hdm2
      rw [htv] at this
      cases this
    · rw [hTdef v, htv] at hcap
      have : d = cap := hcap
      subst this
      exact (h3 v d htv).2.2 e hr

/-- A small concrete coordinate space for exercising `bfsTable`: three
coordinates cycled by a single move. -/
def cycleStep : Fin 3 → Unit → Fin 3 := fun v _ => v + 1

/-- Witness for C2 on the concrete three-coordinate cycle: coordinate 1 is
recorded at its true distance 1. -/
theorem C2_bfs_pattern_database_witness :
    bfsTable cycleStep [()] 5 0 1 = 1 := by
  have hreach : ReachN cycleStep [()] 0 1 1 :=
    ⟨0, (), rfl, List.mem_singleton.mpr rfl, by decide⟩
  have hmin : ∀ e, ReachN cycleStep [()] 0 e 1 → 1 ≤ e := by
    intro e he
    cases e with
    | zero =>
      have hcon : (1 : Fin 3) = 0 := he
      exact absurd hcon (by decide)
    | succ e => omega
  exact (C2_bfs_pattern_database cycleStep [()] 5 0).1 1 1 hreach hmin (by norm_num)

/-! ## C9: korf 4-bit packed pattern-database storage
(korf/pattern_database.py `PatternDatabase`) -/

/-- korf/pattern_database.py `PatternDatabase`: `size` states, two 4-bit
distances packed per byte, bytes initialized to 0xFF. -/
structure PatternDb where
  size : Nat
  data : List Nat
deriving DecidableEq, Repr

/-- `PatternDatabase.__init__`: `np.full((size + 1) // 2, 0xFF, uint8)`. -/
def mkPatternDb (size : Nat) : PatternDb :=
  { size := size, data := List.replicate ((size + 1) / 2) 0xFF }

/-- `PatternDatabase._pack_distance`. -/
def pack_distance (distance : Nat) : Nat := min distance 15

/-- `PatternDatabase.set_distance`; `none` models the `ValueError` for an
out-of-range index. -/
def set_distance (db : PatternDb) (index distance : Nat) : Option PatternDb :=
  if index < db.size then
    let packed := pack_distance distance
    let byteIdx := index / 2
    let b := db.data.getD byteIdx 0
    if index % 2 = 0 then
      some { db with data := db.data.set byteIdx ((b &&& 0xF0) ||| packed) }
    else
      some { db with data := db.data.set byteIdx ((b &&& 0x0F) ||| (packed <<< 4)) }
  else none

/-- `PatternDatabase.get_distance` (with `_unpack_distance` the identity);
`none` models the `ValueError` for an out-of-range index. -/
def get_distance (db : PatternDb) (index : Nat) : Option Nat :=
  if index < db.size then
    let byteIdx := index / 2
    let b := db.data.getD byteIdx 0
    if index % 2 = 0 then some (b &&& 0x0F) else some ((b >>> 4) &&& 0x0F)
  else none

/-- The database as maintained by the source: the byte array has exactly
`(size + 1) / 2` entries, each a uint8. -/
def PatternDb.wf (db : PatternDb) : Prop :=
  db.data.length = (db.size + 1) / 2 ∧ ∀ b ∈ db.data, b < 256

set_option maxRecDepth 10000 in
theorem nibble_facts : ∀ b < 256, ∀ p < 16,
    (((b &&& 0xF0) ||| p) &&& 0x0F = p) ∧
    ((((b &&& 0x0F) ||| (p <<< 4)) >>> 4) &&& 0x0F = p) ∧
    ((((b &&& 0xF0) ||| p) >>> 4) &&& 0x0F = (b >>> 4) &&& 0x0F) ∧
    (((b &&& 0x0F) ||| (p <<< 4)) &&& 0x0F = b &&& 0x0F) ∧
    (((b &&& 0xF0) ||| p) < 256) ∧ (((b &&& 0x0F) ||| (p <<< 4)) < 256) := by
  decide

theorem get_distance_eq (db : PatternDb) (i : Nat) (h : i < db.size) :
    get_distance db i = if i % 2 = 0 then some (db.data.getD (i / 2) 0 &&& 0x0F)
      else some ((db.data.getD (i / 2) 0 >>> 4) &&& 0x0F) := by
  unfold get_distance
  rw [if_pos h]

/-- C9: a fresh database reads 15 at every in-range index; a successful
`set_distance` stores `min(distance, 15)` in the index's own 4-bit slot and
leaves the stored value of every other in-range index unchanged. -/
theorem C9_pattern_db_nibbles :
    (∀ size index, index < size → get_distance (mkPatternDb size) index = some 15) ∧
    (∀ (db : PatternDb) index distance db2, db.wf → index < db.size →
      set_distance db index distance = some db2 →
      get_distance db2 index = some (min distance 15) ∧
      ∀ j, j < db.size → j ≠ index → get_distance db2 j = get_distance db j) := by
  constructor
  · intro size index hidx
    have hb : (List.replicate ((size + 1) / 2) 0xFF).getD (index / 2) 0 = 0xFF := by
      rw [List.getD_eq_getElem _ _ (by simp; omega), List.getElem_replicate]
    rw [get_distance_eq (mkPatternDb size) index hidx]
    simp only [mkPatternDb, hb]
    by_cases hpar : index % 2 = 0
    · rw [if_pos hpar]
      decide
    · rw [if_neg hpar]
      decide
  · intro db index distance db2 hwf hidx hset
    obtain ⟨hlen, hbytes⟩ := hwf
    have hbyteIdx : index / 2 < db.data.length := by
      rw [hlen]
      omega
    have hbmem : db.data.getD (index / 2) 0 ∈ db.data := by
      rw [List.getD_eq_getElem _ _ hbyteIdx]
      exact List.getElem_mem hbyteIdx
    have hblt : db.data.getD (index / 2) 0 < 256 := hbytes _ hbmem
    have hpk : pack_distance distance < 16 := by
      unfold pack_distance
      omega
    obtain ⟨f1, f2, f3, f4, f5, f6⟩ := nibble_facts _ hblt _ hpk
    unfold set_distance at hset
    rw [if_pos hidx] at hset
    by_cases hpar : index % 2 = 0
    · rw [if_pos hpar] at hset
      simp only [Option.some.injEq] at hset
      have hsz : db2.size = db.size := by rw [← hset]
      have hdata : db2.data = db.data.set (index / 2)
          ((db.data.getD (index / 2) 0 &&& 0xF0) ||| pack_distance distance) := by
        rw [← hset]
      have hsetgd : (db.data.set (index / 2)
          ((db.data.getD (index / 2) 0 &&& 0xF0) ||| pack_distance distance)).getD
          (index / 2) 0 =
          (db.data.getD (index / 2) 0 &&& 0xF0) ||| pack_distance distance := by
        rw [List.getD_eq_getElem _ _ (by simp [List.length_set]; omega)]
        exact List.getElem_set_self _
      constructor
      · rw [get_distance_eq db2 index (by rw [hsz]; exact hidx)]
        rw [if_pos hpar, hdata, hsetgd, f1]
        rfl
      · intro j hj hji
        rw [get_distance_eq db2 j (by rw [hsz]; exact hj), get_distance_eq db j hj,
          hdata]
        by_cases hbyte : j / 2 = index / 2
        · have hjpar : ¬ (j % 2 = 0) := by omega
          rw [if_neg hjpar, if_neg hjpar, hbyte, hsetgd, f3]
        · have hgd : (db.data.set (index / 2)
              ((db.data.getD (index / 2) 0 &&& 0xF0) |||
                pack_distance distance)).getD (j / 2) 0 =
              db.data.getD (j / 2) 0 := by
            have hjlen : j / 2 < db.data.length := by
              rw [hlen]
              omega
            rw [List.getD_eq_getElem _ _ (by simp [List.length_set]; omega),
              List.getD_eq_getElem _ _ hjlen]
            exact List.getElem_set_ne (fun h => hbyte h.symm) _
          rw [hgd]
    · rw [if_neg hpar] at hset
      simp only [Option.some.injEq] at hset
      have hsz : db2.size = db.size := by rw [← hset]
      have hdata : db2.data = db.data.set (index / 2)
          ((db.data.getD (index / 2) 0 &&& 0x0F) |||
            (pack_distance distance <<< 4)) := by
        rw [← hset]
      have hsetgd : (db.data.set (index / 2)
          ((db.data.getD (index / 2) 0 &&& 0x0F) |||
            (pack_distance distance <<< 4))).getD (index / 2) 0 =
          (db.data.getD (index / 2) 0 &&& 0x0F) |||
            (pack_distance distance <<< 4) := by
        rw [List.getD_eq_getElem _ _ (by simp [List.length_set]; omega)]
        exact List.getElem_set_self _
      constructor
      · rw [get_distance_eq db2 index (by rw [hsz]; exact hidx)]
        rw [if_neg hpar, hdata, hsetgd, f2]
        rfl
      · intro j hj hji
        rw [get_distance_eq db2 j (by rw [hsz]; exact hj), get_distance_eq db j hj,
          hdata]
        by_cases hbyte : j / 2 = index / 2
        · have hjpar : j % 2 = 0 := by omega
          rw [if_pos hjpar, if_pos hjpar, hbyte, hsetgd, f4]
        · have hgd : (db.data.set (index / 2)
              ((db.data.getD (index / 2) 0 &&& 0x0F) |||
                (pack_distance distance <<< 4))).getD (j / 2) 0 =
              db.data.getD (j / 2) 0 := by
            have hjlen : j / 2 < db.data.length := by
              rw [hlen]
              omega
            rw [List.getD_eq_getElem _ _ (by simp [List.length_set]; omega),
              List.getD_eq_getElem _ _ hjlen]
            exact List.getElem_set_ne (fun h => hbyte h.symm) _
          rw [hgd]

/-- Witness for C9 on a small concrete database. -/
theorem C9_pattern_db_nibbles_witness :
    get_distance (mkPatternDb 10) 3 = some 15 ∧
    get_distance (PatternDb.mk 10 [255, 127, 255, 255, 255]) 3 = some (min 7 15) ∧
    get_distance (PatternDb.mk 10 [255, 127, 255, 255, 255]) 4 =
      get_distance (mkPatternDb 10) 4 := by
  refine ⟨C9_pattern_db_nibbles.1 10 3 (by decide), ?_, ?_⟩
  · exact (C9_pattern_db_nibbles.2 (mkPatternDb 10) 3 7
      (PatternDb.mk 10 [255, 127, 255, 255, 255])
      ⟨by decide, by decide⟩ (by decide) (by decide)).1
  · exact (C9_pattern_db_nibbles.2 (mkPatternDb 10) 3 7
      (PatternDb.mk 10 [255, 127, 255, 255, 255])
      ⟨by decide, by decide⟩ (by decide) (by decide)).2 4 (by decide) (by decide)


/- ### C5: IDA* search control flow (thistlethwaite ida_star.py) -/

/-- The six face letters, used for redundancy pruning on `move[0]`. -/
inductive Face where
  | U
  | D
  | F
  | B
  | L
  | R
deriving DecidableEq

/-- `IDAStarSearch._is_redundant_move` on the face letters of the previous and
current move: same face, or an opposite pair applied in non-canonical order
(D before U, B before F, R before L). -/
def is_redundant_move (prev_face curr_face : Face) : Bool :=
  prev_face == curr_face ||
    (prev_face == Face.D && curr_face == Face.U) ||
    (prev_face == Face.B && curr_face == Face.F) ||
    (prev_face == Face.R && curr_face == Face.L)

/-- Result of `IDAStarSearch._search_recursive`: a solution path, or a
candidate next bound, where `none` stands for `float(inf)`. -/
inductive SearchResult (M : Type) where
  | found : List M → SearchResult M
  | bound : Option Nat → SearchResult M
deriving DecidableEq

/-- The update `if result < min_bound: min_bound = result`, with `none` as
infinity. -/
def minInf : Option Nat → Option Nat → Option Nat
  | none, y => y
  | some x, none => some x
  | some x, some y => some (min x y)

/-- The move loop of `_search_recursive`: skip a redundant move, recurse on
the others, return the first solution found, otherwise the minimum child
bound. The node counter is threaded through `recur`. -/
def child_loop {S M : Type} (recur : S → List M → Nat → SearchResult M × Nat)
    (face : M → Face) (app : S → M → S) (cube : S) (path : List M) :
    List M → Option Nat → Nat → SearchResult M × Nat
  | [], min_bound, nodes => (SearchResult.bound min_bound, nodes)
  | mv :: rest, min_bound, nodes =>
    if path.getLast?.elim false (fun p => is_redundant_move (face p) (face mv)) then
      child_loop recur face app cube path rest min_bound nodes
    else
      match recur (app cube mv) (path ++ [mv]) nodes with
      | (SearchResult.found sol, nodes2) => (SearchResult.found sol, nodes2)
      | (SearchResult.bound b, nodes2) =>
        child_loop recur face app cube path rest (minInf b min_bound) nodes2

/-- `IDAStarSearch._search_recursive`. `tOut n` models the periodic wall-clock
check (performed when the node counter is a multiple of 10000) as observed at
the n-th explored node; `fuel` bounds the recursion depth and is never
exhausted from an entry fuel of `bound + 1`, since expansion only happens
while `g + h ≤ bound`. -/
def search_recursive {S M : Type} (gc : S → Bool) (hfun : S → Nat) (face : M → Face)
    (app : S → M → S) (moves : List M) (tOut : Nat → Bool) (bnd : Nat) :
    Nat → S → List M → Nat → Nat → SearchResult M × Nat
  | 0, cube, path, g, nodes =>
    if (nodes + 1) % 10000 = 0 ∧ tOut (nodes + 1) = true then
      (SearchResult.bound none, nodes + 1)
    else if bnd < g + hfun cube then
      (SearchResult.bound (some (g + hfun cube)), nodes + 1)
    else if gc cube then (SearchResult.found path, nodes + 1)
    else (SearchResult.bound none, nodes + 1)
  | fuel + 1, cube, path, g, nodes =>
    if (nodes + 1) % 10000 = 0 ∧ tOut (nodes + 1) = true then
      (SearchResult.bound none, nodes + 1)
    else if bnd < g + hfun cube then
      (SearchResult.bound (some (g + hfun cube)), nodes + 1)
    else if gc cube then (SearchResult.found path, nodes + 1)
    else
      child_loop
        (fun c p n => search_recursive gc hfun face app moves tOut bnd fuel c p (g + 1) n)
        face app cube path moves none (nodes + 1)

/-- The `while bound <= max_depth` loop of `IDAStarSearch.search`. `tOutTop`
models the wall-clock check at the head of each iteration, indexed by the
iteration number; each recursive search is entered with fuel `bound + 1`,
which the `f > bound` cutoff never exhausts. -/
def search_loop {S M : Type} (gc : S → Bool) (hfun : S → Nat) (face : M → Face)
    (app : S → M → S) (moves : List M) (tOut : Nat → Bool) (max_depth : Nat)
    (tOutTop : Nat → Bool) (cube : S) :
    Nat → Nat → Nat → Nat → Option (List M)
  | 0, _, _, _ => none
  | fuel + 1, iter, bnd, nodes =>
    if bnd ≤ max_depth then
      if tOutTop iter then none
      else
        match search_recursive gc hfun face app moves tOut bnd (bnd + 1) cube [] 0 nodes with
        | (SearchResult.found sol, _) => some sol
        | (SearchResult.bound none, _) => none
        | (SearchResult.bound (some b), nodes2) =>
          search_loop gc hfun face app moves tOut max_depth tOutTop cube fuel (iter + 1) b nodes2
    else none

/-- `IDAStarSearch.search`: answer `[]` at the goal, otherwise iterate bounds
starting from the heuristic of the start state. -/
def ida_search {S M : Type} (gc : S → Bool) (hfun : S → Nat) (face : M → Face)
    (app : S → M → S) (moves : List M) (tOut : Nat → Bool) (max_depth : Nat)
    (tOutTop : Nat → Bool) (loopFuel : Nat) (cube : S) : Option (List M) :=
  if gc cube then some []
  else search_loop gc hfun face app moves tOut max_depth tOutTop cube loopFuel 0 (hfun cube) 0

theorem child_loop_bound_gt {S M : Type} (recur : S → List M → Nat → SearchResult M × Nat)
    (face : M → Face) (app : S → M → S) (cube : S) (path : List M) (bnd : Nat)
    (hrec : ∀ c p n b k, recur c p n = (SearchResult.bound (some b), k) → bnd < b) :
    ∀ (l : List M) (mb : Option Nat) (nodes : Nat),
      (∀ x, mb = some x → bnd < x) →
      ∀ b k, child_loop recur face app cube path l mb nodes = (SearchResult.bound (some b), k) →
        bnd < b := by
  intro l
  induction l with
  | nil =>
    intro mb nodes hmb b k h
    rw [child_loop] at h
    simp only [Prod.mk.injEq, SearchResult.bound.injEq] at h
    exact hmb b h.1
  | cons mv rest ih =>
    intro mb nodes hmb b k h
    rw [child_loop] at h
    split at h
    · exact ih mb nodes hmb b k h
    · rcases hr : recur (app cube mv) (path ++ [mv]) nodes with ⟨res, nodes2⟩
      rw [hr] at h
      cases res with
      | found sol => simp at h
      | bound b2 =>
        refine ih (minInf b2 mb) nodes2 ?_ b k h
        intro x hx
        cases b2 with
        | none =>
          rw [minInf] at hx
          exact hmb x hx
        | some x2 =>
          cases mb with
          | none =>
            rw [minInf] at hx
            injection hx with hx2
            subst hx2
            exact hrec _ _ _ _ _ hr
          | some y =>
            rw [minInf] at hx
            injection hx with hx2
            have h1 := hrec _ _ _ _ _ hr
            have h2 := hmb y rfl
            omega

theorem search_recursive_bound_gt {S M : Type} (gc : S → Bool) (hfun : S → Nat)
    (face : M → Face) (app : S → M → S) (moves : List M) (tOut : Nat → Bool) (bnd : Nat) :
    ∀ (fuel : Nat) (cube : S) (path : List M) (g nodes b k : Nat),
      search_recursive gc hfun face app moves tOut bnd fuel cube path g nodes =
        (SearchResult.bound (some b), k) → bnd < b := by
  intro fuel
  induction fuel with
  | zero =>
    intro cube path g nodes b k h
    by_cases ht : (nodes + 1) % 10000 = 0 ∧ tOut (nodes + 1) = true
    · rw [search_recursive, if_pos ht] at h
      simp at h
    · by_cases hlt : bnd < g + hfun cube
      · rw [search_recursive, if_neg ht, if_pos hlt] at h
        simp only [Prod.mk.injEq, SearchResult.bound.injEq, Option.some.injEq] at h
        omega
      · by_cases hg : gc cube = true
        · rw [search_recursive, if_neg ht, if_neg hlt, if_pos hg] at h
          simp at h
        · rw [search_recursive, if_neg ht, if_neg hlt, if_neg hg] at h
          simp at h
  | succ fuel ih =>
    intro cube path g nodes b k h
    by_cases ht : (nodes + 1) % 10000 = 0 ∧ tOut (nodes + 1) = true
    · rw [search_recursive, if_pos ht] at h
      simp at h
    · by_cases hlt : bnd < g + hfun cube
      · rw [search_recursive, if_neg ht, if_pos hlt] at h
        simp only [Prod.mk.injEq, SearchResult.bound.injEq, Option.some.injEq] at h
        omega
      · by_cases hg : gc cube = true
        · rw [search_recursive, if_neg ht, if_neg hlt, if_pos hg] at h
          simp at h
        · rw [search_recursive, if_neg ht, if_neg hlt, if_neg hg] at h
          exact child_loop_bound_gt _ face app cube path bnd
            (fun c p n b2 k2 hh => ih c p (g + 1) n b2 k2 hh) moves none (nodes + 1)
            (fun x hx => nomatch hx) b k h

/-- C5: in the bounded-depth IDA* search (`IDAStarSearch` of
`thistlethwaite/ida_star.py`, with the two wall-clock checks modelled by the
boolean oracles `tOut` and `tOutTop`): a recursive call whose
`f = g + h` exceeds the current bound returns `f` as a candidate next bound
having explored only that one node; any numeric bound the recursion returns is
strictly above the current bound; the top level answers `[]` at the goal and
otherwise starts its loop at `bound = h(start)`; an iteration within
`max_depth` and not timed out returns a found solution, gives up on an
infinite bound, and otherwise re-searches with the bound returned by the
failed iteration; the loop stops with `none` once the bound exceeds
`max_depth` or the wall-clock check fires. -/
theorem C5_ida_star_control_flow (S M : Type) (gc : S → Bool) (hfun : S → Nat)
    (face : M → Face) (app : S → M → S) (moves : List M) (tOut : Nat → Bool) :
    (∀ bnd fuel cube path g nodes,
        ¬((nodes + 1) % 10000 = 0 ∧ tOut (nodes + 1) = true) →
        bnd < g + hfun cube →
        search_recursive gc hfun face app moves tOut bnd fuel cube path g nodes =
          (SearchResult.bound (some (g + hfun cube)), nodes + 1)) ∧
    (∀ bnd fuel cube path g nodes b k,
        search_recursive gc hfun face app moves tOut bnd fuel cube path g nodes =
          (SearchResult.bound (some b), k) → bnd < b) ∧
    (∀ max_depth tOutTop loopFuel cube,
        (gc cube = true →
          ida_search gc hfun face app moves tOut max_depth tOutTop loopFuel cube = some []) ∧
        (gc cube = false →
          ida_search gc hfun face app moves tOut max_depth tOutTop loopFuel cube =
            search_loop gc hfun face app moves tOut max_depth tOutTop cube loopFuel 0
              (hfun cube) 0)) ∧
    (∀ max_depth tOutTop cube fuel iter bnd nodes, bnd ≤ max_depth → tOutTop iter = false →
        (∀ sol nodes2,
          search_recursive gc hfun face app moves tOut bnd (bnd + 1) cube [] 0 nodes =
            (SearchResult.found sol, nodes2) →
          search_loop gc hfun face app moves tOut max_depth tOutTop cube (fuel + 1) iter bnd
            nodes = some sol) ∧
        (∀ nodes2,
          search_recursive gc hfun face app moves tOut bnd (bnd + 1) cube [] 0 nodes =
            (SearchResult.bound none, nodes2) →
          search_loop gc hfun face app moves tOut max_depth tOutTop cube (fuel + 1) iter bnd
            nodes = none) ∧
        (∀ b nodes2,
          search_recursive gc hfun face app moves tOut bnd (bnd + 1) cube [] 0 nodes =
            (SearchResult.bound (some b), nodes2) →
          search_loop gc hfun face app moves tOut max_depth tOutTop cube (fuel + 1) iter bnd
            nodes =
            search_loop gc hfun face app moves tOut max_depth tOutTop cube fuel (iter + 1) b
              nodes2)) ∧
    (∀ max_depth tOutTop cube fuel iter bnd nodes,
        (max_depth < bnd →
          search_loop gc hfun face app moves tOut max_depth tOutTop cube (fuel + 1) iter bnd
            nodes = none) ∧
        (bnd ≤ max_depth → tOutTop iter = true →
          search_loop gc hfun face app moves tOut max_depth tOutTop cube (fuel + 1) iter bnd
            nodes = none)) := by
  refine ⟨?_, ?_, ?_, ?_, ?_⟩
  · intro bnd fuel cube path g nodes ht hlt
    cases fuel with
    | zero => rw [search_recursive, if_neg ht, if_pos hlt]
    | succ fuel => rw [search_recursive, if_neg ht, if_pos hlt]
  · exact fun bnd fuel cube path g nodes b k h =>
      search_recursive_bound_gt gc hfun face app moves tOut bnd fuel cube path g nodes b k h
  · intro max_depth tOutTop loopFuel cube
    constructor
    · intro hg
      rw [ida_search, if_pos hg]
    · intro hg
      rw [ida_search, if_neg (by simp [hg])]
  · intro max_depth tOutTop cube fuel iter bnd nodes hble hto
    refine ⟨?_, ?_, ?_⟩
    · intro sol nodes2 hres
      rw [search_loop, if_pos hble, if_neg (by simp [hto]), hres]
    · intro nodes2 hres
      rw [search_loop, if_pos hble, if_neg (by simp [hto]), hres]
    · intro b nodes2 hres
      rw [search_loop, if_pos hble, if_neg (by simp [hto]), hres]
  · intro max_depth tOutTop cube fuel iter bnd nodes
    constructor
    · intro hgt
      rw [search_loop, if_neg (by omega)]
    · intro hble hto
      rw [search_loop, if_pos hble, if_pos hto]

def gcW : Nat → Bool := fun v => v == 0

def hfunW : Nat → Nat := fun v => v

def faceW : Unit → Face := fun _ => Face.U

def appW : Nat → Unit → Nat := fun v _ => v - 1

def tOutW : Nat → Bool := fun _ => false

/-- Witness for C5 at a concrete one-move search instance. -/
theorem C5_ida_star_control_flow_witness :
    search_recursive gcW hfunW faceW appW [()] tOutW 1 5 3 [] 0 0 =
      (SearchResult.bound (some 3), 1) ∧
    (1 : Nat) < 3 ∧
    ida_search gcW hfunW faceW appW [()] tOutW 20 tOutW 7 3 =
      search_loop gcW hfunW faceW appW [()] tOutW 20 tOutW 3 7 0 (hfunW 3) 0 ∧
    search_loop gcW hfunW faceW appW [()] tOutW 20 tOutW 3 6 0 1 0 =
      search_loop gcW hfunW faceW appW [()] tOutW 20 tOutW 3 5 1 3 1 ∧
    search_loop gcW hfunW faceW appW [()] tOutW 20 tOutW 3 6 0 30 0 = none := by
  obtain ⟨h1, h2, h3, h4, h5⟩ := C5_ida_star_control_flow Nat Unit gcW hfunW faceW appW [()] tOutW
  refine ⟨?_, ?_, ?_, ?_, ?_⟩
  · exact h1 1 5 3 [] 0 0 (by decide) (by decide)
  · exact h2 1 5 3 [] 0 0 3 1 (by decide)
  · exact (h3 20 tOutW 7 3).2 (by decide)
  · exact (h4 20 tOutW 3 5 0 1 0 (by decide) (by decide)).2.2 3 1 (by decide)
  · exact (h5 20 tOutW 3 5 0 30 0).1 (by decide)



/- ### C6 and C7: solve entry points and the facelet-to-cubie conversion -/

/-- `RubikCube` of `cube/rubik_cube.py`: six faces of nine facelets, row `f`
holding the colors of face `f` (faces numbered U=0, D=1, F=2, B=3, L=4, R=5). -/
structure RubikCube where
  state : List (List Nat)
deriving DecidableEq

/-- The solved cube: every facelet of face `f` shows color `f`. -/
def initialRubik : RubikCube :=
  ⟨(List.range 6).map (fun f => List.replicate 9 f)⟩

/-- `RubikCube.is_solved`: every face shows only its own color. -/
def RubikCube.is_solved (c : RubikCube) : Bool :=
  (List.range 6).all (fun f => (c.state.getD f []).all (fun x => x == f))

/-- `corner_facelets` of `kociemba/cubie.py`: the three (face, facelet index)
pairs of each corner position. -/
def corner_facelets : List (List (Nat × Nat)) :=
  [[(0, 8), (5, 0), (2, 2)],
   [(0, 6), (2, 0), (4, 2)],
   [(0, 0), (4, 0), (3, 2)],
   [(0, 2), (3, 0), (5, 2)],
   [(1, 2), (2, 8), (5, 6)],
   [(1, 0), (4, 8), (2, 6)],
   [(1, 6), (3, 8), (4, 6)],
   [(1, 8), (5, 8), (3, 6)]]

/-- `edge_facelets`: the two (face, facelet index) pairs of each edge
position. -/
def edge_facelets : List (List (Nat × Nat)) :=
  [[(0, 5), (5, 1)], [(0, 7), (2, 1)], [(0, 3), (4, 1)], [(0, 1), (3, 1)],
   [(1, 5), (5, 7)], [(1, 1), (2, 7)], [(1, 3), (4, 7)], [(1, 7), (3, 7)],
   [(2, 5), (5, 3)], [(2, 3), (4, 5)], [(3, 5), (4, 3)], [(3, 3), (5, 5)]]

/-- The `ValueError` of `from_facelet_cube`, carrying the unmatched colors and
the position, for a corner or an edge respectively. -/
inductive FaceletError where
  | noCorner (colors : List Nat) (pos : Nat)
  | noEdge (colors : List Nat) (pos : Nat)
deriving DecidableEq

/-- The three facelet colors of corner position `pos` read off the cube. -/
def cornerColorsAt (cube : RubikCube) (pos : Nat) : List Nat :=
  (corner_facelets.getD pos []).map (fun fk => (cube.state.getD fk.1 []).getD fk.2 0)

/-- The two facelet colors of edge position `pos` read off the cube. -/
def edgeColorsAt (cube : RubikCube) (pos : Nat) : List Nat :=
  (edge_facelets.getD pos []).map (fun fk => (cube.state.getD fk.1 []).getD fk.2 0)

/-- The reference colors of a piece are the face numbers of its facelets. -/
def refColors (facelets : List (List (Nat × Nat))) (i : Nat) : List Nat :=
  (facelets.getD i []).map Prod.fst

/-- `[colors[(0 + rot) % 3], colors[(1 + rot) % 3], colors[(2 + rot) % 3]]`. -/
def rotatedColors (colors : List Nat) (rot : Nat) : List Nat :=
  [colors.getD ((0 + rot) % 3) 0, colors.getD ((1 + rot) % 3) 0,
   colors.getD ((2 + rot) % 3) 0]

/-- The corner scan of `from_facelet_cube`: the first pair (corner index,
rotation) whose rotated colors match the reference corner, scanning the eight
corners in order and the three rotations within each (candidate `n` encodes
corner `n / 3`, rotation `n % 3`, in the loop order of the source). -/
def findCorner (colors : List Nat) : Option (Nat × Nat) :=
  (((List.range 24).map (fun n => (n / 3, n % 3))).find?
    (fun cr => rotatedColors colors cr.2 == refColors corner_facelets cr.1))

/-- The edge scan of `from_facelet_cube`: the first edge index whose reference
colors match the two colors directly (flip 0) or reversed (flip 1). -/
def findEdge (colors : List Nat) : Option (Nat × Nat) :=
  (List.range 12).findSome? (fun ei =>
    let ref := refColors edge_facelets ei
    if colors == ref then some (ei, 0)
    else if colors == [ref.getD 1 0, ref.getD 0 0] then some (ei, 1)
    else none)

/-- The position loop of `from_facelet_cube`: match each position in order,
collecting the permutation and orientation entries, raising at the first
position with no match. -/
def extractPieces (find : List Nat → Option (Nat × Nat)) (colorsAt : Nat → List Nat)
    (mkErr : List Nat → Nat → FaceletError) :
    List Nat → Except FaceletError (List Nat × List Nat)
  | [] => Except.ok ([], [])
  | pos :: rest =>
    match find (colorsAt pos) with
    | none => Except.error (mkErr (colorsAt pos) pos)
    | some io =>
      match extractPieces find colorsAt mkErr rest with
      | Except.error e => Except.error e
      | Except.ok (ps, os) => Except.ok (io.1 :: ps, io.2 :: os)

/-- `from_facelet_cube`: extract the eight corners, then the twelve edges; the
first unmatched piece raises its `ValueError`. -/
def from_facelet_cube (cube : RubikCube) : Except FaceletError CubieCube :=
  match extractPieces findCorner (cornerColorsAt cube) FaceletError.noCorner (List.range 8) with
  | Except.error e => Except.error e
  | Except.ok (cp, co) =>
    match extractPieces findEdge (edgeColorsAt cube) FaceletError.noEdge (List.range 12) with
    | Except.error e => Except.error e
    | Except.ok (ep, eo) =>
      Except.ok { corner_perm := cp, corner_orient := co, edge_perm := ep, edge_orient := eo }

/-- `KociembaSolver.solve`: answer the empty triple on a solved cube, else
convert to cubies (a conversion error escaping as in the source) and hand over
to table setup and the two-phase search, abstracted as `rest`. -/
def KociembaSolver_solve {M : Type} (rest : CubieCube → Option (List M × List M × List M))
    (cube : RubikCube) : Except FaceletError (Option (List M × List M × List M)) :=
  if cube.is_solved then Except.ok (some ([], [], []))
  else
    match from_facelet_cube cube with
    | Except.error e => Except.error e
    | Except.ok cubie => Except.ok (rest cubie)

/-- `ThistlethwaiteSolver.solve`: answer the empty move list with four empty
phase lists on a solved cube, else run the phase loop, abstracted as `rest`. -/
def ThistlethwaiteSolver_solve {M : Type} (rest : RubikCube → Option (List M × List (List M)))
    (cube : RubikCube) : Option (List M × List (List M)) :=
  if cube.is_solved then some ([], [[], [], [], []])
  else rest cube

/-- C6: an already-solved input yields the empty solution from both solvers --
`([], [], [])` from the two-phase solver and an empty move list with four
empty per-phase lists from the four-phase solver -- never a failure or
`none`, whatever the downstream search would do. -/
theorem C6_solved_input_empty_solution (M : Type)
    (restK : CubieCube → Option (List M × List M × List M))
    (restT : RubikCube → Option (List M × List (List M))) (cube : RubikCube)
    (h : cube.is_solved = true) :
    KociembaSolver_solve restK cube = Except.ok (some ([], [], [])) ∧
    (∀ e, KociembaSolver_solve restK cube ≠ Except.error e) ∧
    ThistlethwaiteSolver_solve restT cube = some ([], [[], [], [], []]) ∧
    ThistlethwaiteSolver_solve restT cube ≠ none := by
  refine ⟨?_, ?_, ?_, ?_⟩ <;> simp [KociembaSolver_solve, ThistlethwaiteSolver_solve, h]

/-- Witness for C6 on the solved cube, with a search that always fails. -/
theorem C6_solved_input_empty_solution_witness :
    RubikCube.is_solved initialRubik = true ∧
    KociembaSolver_solve (fun _ => (none : Option (List Nat × List Nat × List Nat)))
      initialRubik = Except.ok (some ([], [], [])) ∧
    ThistlethwaiteSolver_solve (fun _ => (none : Option (List Nat × List (List Nat))))
      initialRubik = some ([], [[], [], [], []]) := by
  refine ⟨by decide, ?_, ?_⟩
  · exact (C6_solved_input_empty_solution Nat (fun _ => none) (fun _ => none) initialRubik
      (by decide)).1
  · exact (C6_solved_input_empty_solution Nat (fun _ => none) (fun _ => none) initialRubik
      (by decide)).2.2.1

theorem extractPieces_error_at (find : List Nat → Option (Nat × Nat))
    (colorsAt : Nat → List Nat) (mkErr : List Nat → Nat → FaceletError) (pos : Nat)
    (hfail : find (colorsAt pos) = none) :
    ∀ l1 l2, (∀ q ∈ l1, find (colorsAt q) ≠ none) →
      extractPieces find colorsAt mkErr (l1 ++ pos :: l2) =
        Except.error (mkErr (colorsAt pos) pos) := by
  intro l1
  induction l1 with
  | nil =>
    intro l2 _
    rw [List.nil_append, extractPieces, hfail]
  | cons q l1 ih =>
    intro l2 hok
    have hq : find (colorsAt q) ≠ none := hok q (List.mem_cons_self q l1)
    obtain ⟨io, hio⟩ := Option.ne_none_iff_exists'.mp hq
    rw [List.cons_append, extractPieces, hio,
      ih l2 (fun r hr => hok r (List.mem_cons_of_mem q hr))]

theorem extractPieces_ok (find : List Nat → Option (Nat × Nat)) (colorsAt : Nat → List Nat)
    (mkErr : List Nat → Nat → FaceletError) :
    ∀ l, (∀ q ∈ l, find (colorsAt q) ≠ none) →
      ∃ ps os, extractPieces find colorsAt mkErr l = Except.ok (ps, os) := by
  intro l
  induction l with
  | nil => exact fun _ => ⟨[], [], rfl⟩
  | cons q rest ih =>
    intro hok
    obtain ⟨io, hio⟩ := Option.ne_none_iff_exists'.mp (hok q (List.mem_cons_self q rest))
    obtain ⟨ps, os, hrec⟩ := ih (fun r hr => hok r (List.mem_cons_of_mem q hr))
    exact ⟨io.1 :: ps, io.2 :: os, by rw [extractPieces, hio, hrec]⟩

theorem range_split_at (n pos : Nat) (h : pos < n) :
    List.range n = List.range pos ++ pos :: List.drop (pos + 1) (List.range n) := by
  conv_lhs => rw [← List.take_append_drop pos (List.range n)]
  rw [List.take_range, Nat.min_eq_left (Nat.le_of_lt h),
    List.drop_eq_getElem_cons (by simpa using h), List.getElem_range]

/-- C7: a facelet input with a corner whose colors match no physical corner in
any rotation makes `from_facelet_cube` raise the corner `ValueError` carrying
those colors and the first such position; with all corners matched, an edge
whose colors match no physical edge in either flip raises the edge
`ValueError` likewise; in either case `KociembaSolver.solve` on a non-solved
such cube propagates exactly that error whatever search function it would
later run, so the failure precedes any search. -/
theorem C7_invalid_facelet_rejected (cube : RubikCube) (pos : Nat) :
    (pos < 8 → findCorner (cornerColorsAt cube pos) = none →
      (∀ q, q < pos → findCorner (cornerColorsAt cube q) ≠ none) →
      from_facelet_cube cube =
        Except.error (FaceletError.noCorner (cornerColorsAt cube pos) pos) ∧
      (cube.is_solved = false →
        ∀ (M : Type) (rest : CubieCube → Option (List M × List M × List M)),
        KociembaSolver_solve rest cube =
          Except.error (FaceletError.noCorner (cornerColorsAt cube pos) pos))) ∧
    ((∀ q, q < 8 → findCorner (cornerColorsAt cube q) ≠ none) →
      pos < 12 → findEdge (edgeColorsAt cube pos) = none →
      (∀ q, q < pos → findEdge (edgeColorsAt cube q) ≠ none) →
      from_facelet_cube cube =
        Except.error (FaceletError.noEdge (edgeColorsAt cube pos) pos) ∧
      (cube.is_solved = false →
        ∀ (M : Type) (rest : CubieCube → Option (List M × List M × List M)),
        KociembaSolver_solve rest cube =
          Except.error (FaceletError.noEdge (edgeColorsAt cube pos) pos))) := by
  constructor
  · intro h8 hfail hearly
    have hcorners : extractPieces findCorner (cornerColorsAt cube) FaceletError.noCorner
        (List.range 8) = Except.error (FaceletError.noCorner (cornerColorsAt cube pos) pos) := by
      rw [range_split_at 8 pos h8]
      exact extractPieces_error_at _ _ _ pos hfail (List.range pos) _
        (fun q hq => hearly q (List.mem_range.mp hq))
    have hff : from_facelet_cube cube =
        Except.error (FaceletError.noCorner (cornerColorsAt cube pos) pos) := by
      unfold from_facelet_cube
      rw [hcorners]
    refine ⟨hff, ?_⟩
    intro hns M rest
    unfold KociembaSolver_solve
    rw [if_neg (by simp [hns]), hff]
  · intro hcornersOk h12 hfail hearly
    obtain ⟨ps, os, hcorners⟩ := extractPieces_ok findCorner (cornerColorsAt cube)
      FaceletError.noCorner (List.range 8)
      (fun q hq => hcornersOk q (List.mem_range.mp hq))
    have hedges : extractPieces findEdge (edgeColorsAt cube) FaceletError.noEdge
        (List.range 12) = Except.error (FaceletError.noEdge (edgeColorsAt cube pos) pos) := by
      rw [range_split_at 12 pos h12]
      exact extractPieces_error_at _ _ _ pos hfail (List.range pos) _
        (fun q hq => hearly q (List.mem_range.mp hq))
    have hff : from_facelet_cube cube =
        Except.error (FaceletError.noEdge (edgeColorsAt cube pos) pos) := by
      unfold from_facelet_cube
      rw [hcorners, hedges]
    refine ⟨hff, ?_⟩
    intro hns M rest
    unfold KociembaSolver_solve
    rw [if_neg (by simp [hns]), hff]

/-- A solved cube whose U face has its last facelet repainted with the D
color: its URF corner shows colors (D, R, F), which no physical corner shows
in any rotation. -/
def badRubik : RubikCube :=
  ⟨[[0, 0, 0, 0, 0, 0, 0, 0, 1],
    List.replicate 9 1, List.replicate 9 2, List.replicate 9 3,
    List.replicate 9 4, List.replicate 9 5]⟩

/-- Witness for C7 on `badRubik`, whose first corner position is unmatched. -/
theorem C7_invalid_facelet_rejected_witness :
    from_facelet_cube badRubik = Except.error (FaceletError.noCorner [1, 5, 2] 0) ∧
    KociembaSolver_solve (fun _ => (none : Option (List Nat × List Nat × List Nat)))
      badRubik = Except.error (FaceletError.noCorner [1, 5, 2] 0) := by
  have h := (C7_invalid_facelet_rejected badRubik 0).1 (by decide) (by decide)
    (fun q hq => absurd hq (by omega))
  exact ⟨h.1, h.2 (by decide) Nat (fun _ => none)⟩



/- ### C8: cached table loaders perform no size validation -/

/-- The six move tables of `MoveTables` (`kociemba/moves.py`), as lists of
rows of entries. -/
structure MoveTablesData where
  corner_orient_moves : List (List Nat)
  edge_orient_moves : List (List Nat)
  udslice_moves : List (List Nat)
  corner_perm_moves : List (List Nat)
  edge_perm_moves : List (List Nat)
  udslice_perm_moves : List (List Nat)
deriving DecidableEq

/-- `MoveTables.load`: when not forcing regeneration and the cache file
exists, the unpickled tables are assigned to the fields as-is; otherwise the
tables are regenerated. `cached` is the cache file content, `none` when the
file is absent. -/
def MoveTables_load (force_regenerate : Bool) (cached : Option MoveTablesData)
    (generated : MoveTablesData) : MoveTablesData :=
  match force_regenerate, cached with
  | false, some data => data
  | _, _ => generated

/-- The five pruning tables of `PruningTables` (`kociemba/pruning.py`). -/
structure PruningTablesData where
  phase1_co_eo : List Nat
  phase1_eo_slice : List Nat
  phase2_cp : List Nat
  phase2_ep : List Nat
  phase2_sp : List Nat
deriving DecidableEq

/-- `PruningTables.load` (after its move-table setup): the same cache logic as
`MoveTables.load`, assigning the unpickled arrays as-is. -/
def PruningTables_load (force_regenerate : Bool) (cached : Option PruningTablesData)
    (generated : PruningTablesData) : PruningTablesData :=
  match force_regenerate, cached with
  | false, some data => data
  | _, _ => generated

/-- The expected shapes of the six move tables (rows per coordinate space and
entries per move, from the comments and generators of `kociemba/moves.py`):
2187, 2048 and 495 rows of 18, and 40320, 40320 and 24 rows of 10. -/
def moveTablesSizesOk (d : MoveTablesData) : Bool :=
  d.corner_orient_moves.length == 2187 && d.edge_orient_moves.length == 2048 &&
  d.udslice_moves.length == 495 && d.corner_perm_moves.length == 40320 &&
  d.edge_perm_moves.length == 40320 && d.udslice_perm_moves.length == 24 &&
  (d.corner_orient_moves ++ d.edge_orient_moves ++ d.udslice_moves).all
    (fun r => r.length == 18) &&
  (d.corner_perm_moves ++ d.edge_perm_moves ++ d.udslice_perm_moves).all
    (fun r => r.length == 10)

/-- The loader the spec describes, for comparison with `MoveTables_load`:
validate the cached blob shape before trusting it, regenerating on a
mismatch. -/
def MoveTables_load_validated (force_regenerate : Bool) (cached : Option MoveTablesData)
    (generated : MoveTablesData) : MoveTablesData :=
  match force_regenerate, cached with
  | false, some data => if moveTablesSizesOk data then data else generated
  | _, _ => generated

/-- A cached blob of entirely empty tables: every dimension mismatches. -/
def badMoveTables : MoveTablesData :=
  ⟨[], [], [], [], [], []⟩

/-- A stand-in for freshly generated move tables, distinct from
`badMoveTables`. -/
def genMoveTables : MoveTablesData :=
  ⟨[[0]], [[0]], [[0]], [[0]], [[0]], [[0]]⟩

/-- A cached pruning blob of empty arrays. -/
def badPruningTables : PruningTablesData :=
  ⟨[], [], [], [], []⟩

/-- A stand-in for freshly generated pruning tables. -/
def genPruningTables : PruningTablesData :=
  ⟨[0], [0], [0], [0], [0]⟩

/-- C8 counterexample to the claimed load-time validation: a cached blob whose
every table is empty fails the size check the spec demands, yet
`MoveTables.load` returns it unchanged with no error and no regeneration --
unlike the validated loader the spec describes -- and `PruningTables.load`
trusts its wrongly-sized blob the same way. -/
theorem C8_loader_counterexample :
    moveTablesSizesOk badMoveTables = false ∧
    MoveTables_load false (some badMoveTables) genMoveTables = badMoveTables ∧
    MoveTables_load_validated false (some badMoveTables) genMoveTables = genMoveTables ∧
    badMoveTables ≠ genMoveTables ∧
    PruningTables_load false (some badPruningTables) genPruningTables = badPruningTables ∧
    badPruningTables ≠ genPruningTables := by
  refine ⟨by decide, rfl, by decide, by decide, rfl, by decide⟩

/-- C8 (amended): the loaders perform no size or shape validation -- a cached
move-table or pruning-table blob is trusted as-is whatever its dimensions --
and regeneration occurs exactly when the cache file is absent or
`force_regenerate` is set. -/
theorem C8_loader_no_validation (mcached mgen : MoveTablesData)
    (pcached pgen : PruningTablesData) :
    MoveTables_load false (some mcached) mgen = mcached ∧
    MoveTables_load true (some mcached) mgen = mgen ∧
    MoveTables_load false none mgen = mgen ∧
    MoveTables_load true none mgen = mgen ∧
    PruningTables_load false (some pcached) pgen = pcached ∧
    PruningTables_load true (some pcached) pgen = pgen ∧
    PruningTables_load false none pgen = pgen ∧
    PruningTables_load true none pgen = pgen :=
  ⟨rfl, rfl, rfl, rfl, rfl, rfl, rfl, rfl⟩

/- ### C10: the Kociemba per-solve timeout is soft -/

/-- `KociembaSolver.__init__` default for `timeout_grace`. -/
def timeout_grace_default : ℚ := 10

/-- `KociembaSolver._timed_out`: elapsed wall-clock time measured against the
soft deadline `timeout + timeout_grace`. -/
def timed_out (timeout_grace start_time timeout now : ℚ) : Bool :=
  decide (now - start_time > timeout + timeout_grace)

/-- The move loop shared by `_phase1_ida_search` and `_phase2_ida_search`:
skip redundant moves, recurse, return the first solution found. -/
def phase_try_moves {M : Type}
    (recur : Nat × Nat × Nat → List M → Option M → Nat → Option (List M) × Nat)
    (applyMv : Nat × Nat × Nat → M → Nat × Nat × Nat) (red : M → M → Bool)
    (s : Nat × Nat × Nat) (path : List M) (last : Option M) :
    List M → Nat → Option (List M) × Nat
  | [], nodes => (none, nodes)
  | mv :: rest, nodes =>
    if last.elim false (fun lm => red lm mv) then
      phase_try_moves recur applyMv red s path last rest nodes
    else
      match recur (applyMv s mv) (path ++ [mv]) (some mv) nodes with
      | (some sol, nodes2) => (some sol, nodes2)
      | (none, nodes2) => phase_try_moves recur applyMv red s path last rest nodes2

/-- `_phase1_ida_search` / `_phase2_ida_search` over a coordinate triple:
every call first bumps the node counter and checks the soft timeout, aborting
with `None` and discarding the path; then tests the goal, the depth limit and
the heuristic cutoff `h > depth` before expanding. `clock n` is the wall-clock
time at the n-th explored node. -/
def phase_ida_search {M : Type} (heur : Nat × Nat × Nat → Nat)
    (applyMv : Nat × Nat × Nat → M → Nat × Nat × Nat) (moves : List M)
    (red : M → M → Bool) (clock : Nat → ℚ) (start_time timeout grace : ℚ) :
    Nat → Nat × Nat × Nat → List M → Option M → Nat → Option (List M) × Nat
  | 0, s, path, _, nodes =>
    if timed_out grace start_time timeout (clock (nodes + 1)) then (none, nodes + 1)
    else if s = (0, 0, 0) then (some path, nodes + 1)
    else (none, nodes + 1)
  | depth + 1, s, path, last, nodes =>
    if timed_out grace start_time timeout (clock (nodes + 1)) then (none, nodes + 1)
    else if s = (0, 0, 0) then (some path, nodes + 1)
    else if depth + 1 < heur s then (none, nodes + 1)
    else
      phase_try_moves
        (fun s2 p2 l2 n2 =>
          phase_ida_search heur applyMv moves red clock start_time timeout grace depth
            s2 p2 l2 n2)
        applyMv red s path last moves (nodes + 1)

/-- The depth loop of `_solve_phase1` / `_solve_phase2`: for each depth up to
the maximum, check the soft timeout, then run the bounded search, returning
its solution or moving to the next depth with the node counter carried over.
`clockTop d` is the wall-clock time at the check before depth `d`. -/
def solve_phase_go {M : Type} (heur : Nat × Nat × Nat → Nat)
    (applyMv : Nat × Nat × Nat → M → Nat × Nat × Nat) (moves : List M)
    (red : M → M → Bool) (clock clockTop : Nat → ℚ) (start_time timeout grace : ℚ)
    (s0 : Nat × Nat × Nat) :
    List Nat → Nat → Option (List M)
  | [], _ => none
  | depth :: rest, nodes =>
    if timed_out grace start_time timeout (clockTop depth) then none
    else
      match phase_ida_search heur applyMv moves red clock start_time timeout grace depth
          s0 [] none nodes with
      | (some sol, _) => some sol
      | (none, nodes2) =>
        solve_phase_go heur applyMv moves red clock clockTop start_time timeout grace s0
          rest nodes2

/-- `_solve_phase1` / `_solve_phase2`: answer `[]` when the coordinates are
already at the goal, otherwise run the depth loop over `0 .. max_depth`. -/
def solve_phase {M : Type} (heur : Nat × Nat × Nat → Nat)
    (applyMv : Nat × Nat × Nat → M → Nat × Nat × Nat) (moves : List M)
    (red : M → M → Bool) (clock clockTop : Nat → ℚ) (start_time timeout grace : ℚ)
    (s0 : Nat × Nat × Nat) (max_depth : Nat) : Option (List M) :=
  if s0 = (0, 0, 0) then some []
  else
    solve_phase_go heur applyMv moves red clock clockTop start_time timeout grace s0
      (List.range (max_depth + 1)) 0

/-- C10: the per-solve timeout of the two-phase solver is soft. The check
fires exactly when elapsed wall-clock time exceeds `timeout + timeout_grace`
(so an elapsed time within the grace of the nominal timeout never aborts),
the grace defaults to 10 seconds, an expired check makes the recursive phase
search return `None` at once -- discarding the partial path even at a goal
state -- and makes the depth loop abort with `None`; an unexpired check lets a
goal state return its path. -/
theorem C10_soft_timeout :
    timeout_grace_default = 10 ∧
    (∀ grace start_time timeout now : ℚ,
        timed_out grace start_time timeout now = true ↔
          now - start_time > timeout + grace) ∧
    (∀ start_time timeout now : ℚ,
        now - start_time ≤ timeout + timeout_grace_default →
        timed_out timeout_grace_default start_time timeout now = false) ∧
    (∀ (M : Type) (heur : Nat × Nat × Nat → Nat)
        (applyMv : Nat × Nat × Nat → M → Nat × Nat × Nat) (moves : List M)
        (red : M → M → Bool) (clock : Nat → ℚ) (start_time timeout grace : ℚ)
        (depth : Nat) (s : Nat × Nat × Nat) (path : List M) (last : Option M)
        (nodes : Nat),
        timed_out grace start_time timeout (clock (nodes + 1)) = true →
        phase_ida_search heur applyMv moves red clock start_time timeout grace depth s
          path last nodes = (none, nodes + 1)) ∧
    (∀ (M : Type) (heur : Nat × Nat × Nat → Nat)
        (applyMv : Nat × Nat × Nat → M → Nat × Nat × Nat) (moves : List M)
        (red : M → M → Bool) (clock clockTop : Nat → ℚ)
        (start_time timeout grace : ℚ) (s0 : Nat × Nat × Nat) (depth : Nat)
        (rest : List Nat) (nodes : Nat),
        timed_out grace start_time timeout (clockTop depth) = true →
        solve_phase_go heur applyMv moves red clock clockTop start_time timeout grace s0
          (depth :: rest) nodes = none) ∧
    (∀ (M : Type) (heur : Nat × Nat × Nat → Nat)
        (applyMv : Nat × Nat × Nat → M → Nat × Nat × Nat) (moves : List M)
        (red : M → M → Bool) (clock : Nat → ℚ) (start_time timeout grace : ℚ)
        (depth : Nat) (path : List M) (last : Option M) (nodes : Nat),
        timed_out grace start_time timeout (clock (nodes + 1)) = false →
        phase_ida_search heur applyMv moves red clock start_time timeout grace depth
          (0, 0, 0) path last nodes = (some path, nodes + 1)) := by
  refine ⟨rfl, ?_, ?_, ?_, ?_, ?_⟩
  · intro grace start_time timeout now
    simp [timed_out]
  · intro start_time timeout now h
    simp only [timed_out, decide_eq_false_iff_not]
    exact not_lt.mpr h
  · intro M heur applyMv moves red clock start_time timeout grace depth s path last nodes ht
    cases depth with
    | zero => rw [phase_ida_search, if_pos ht]
    | succ depth => rw [phase_ida_search, if_pos ht]
  · intro M heur applyMv moves red clock clockTop start_time timeout grace s0 depth rest
      nodes ht
    rw [solve_phase_go, if_pos ht]
  · intro M heur applyMv moves red clock start_time timeout grace depth path last nodes ht
    cases depth with
    | zero => rw [phase_ida_search, if_neg (by simp [ht]), if_pos rfl]
    | succ depth => rw [phase_ida_search, if_neg (by simp [ht]), if_pos rfl]

/-- Witness for C10 at concrete times: a 30-second timeout with the default
grace aborts at 41 seconds of elapsed time but not at 40. -/
theorem C10_soft_timeout_witness :
    timed_out 10 0 30 41 = true ∧
    timed_out 10 0 30 40 = false ∧
    phase_ida_search (fun _ => 0) (fun s _ => s) [()] (fun _ _ => false) (fun _ => 41)
      0 30 10 5 (1, 0, 0) [] none 0 = (none, 1) ∧
    solve_phase_go (fun _ => 0) (fun s _ => s) [()] (fun _ _ => false) (fun _ => 41)
      (fun _ => 41) 0 30 10 (1, 0, 0) [3, 4] 0 = none ∧
    phase_ida_search (fun _ => 0) (fun s _ => s) [()] (fun _ _ => false) (fun _ => 40)
      0 30 10 5 (0, 0, 0) [(), ()] none 0 = (some [(), ()], 1) := by
  obtain ⟨h1, h2, h3, h4, h5, h6⟩ := C10_soft_timeout
  refine ⟨?_, ?_, ?_, ?_, ?_⟩
  · exact (h2 10 0 30 41).mpr (by norm_num)
  · exact h3 0 30 40 (by norm_num [timeout_grace_default])
  · exact h4 Unit (fun _ => 0) (fun s _ => s) [()] (fun _ _ => false) (fun _ => 41)
      0 30 10 5 (1, 0, 0) [] none 0 ((h2 10 0 30 41).mpr (by norm_num))
  · exact h5 Unit (fun _ => 0) (fun s _ => s) [()] (fun _ _ => false) (fun _ => 41)
      (fun _ => 41) 0 30 10 (1, 0, 0) 3 [4] 0 ((h2 10 0 30 41).mpr (by norm_num))
  · exact h6 Unit (fun _ => 0) (fun s _ => s) [()] (fun _ _ => false) (fun _ => 40)
      0 30 10 5 [(), ()] none 0 (h3 0 30 40 (by norm_num [timeout_grace_default]))


end Rubik
